import Mathlib

/-!
# Verification of `spacetoolbox`'s area–Mach relation module

Shallow embedding of `src/spacetoolbox/Area_Mach_relation/area_mach_relation.py`
over exact rationals (ℚ).

The Python module computes, for a point of a converging–diverging nozzle
contour, the local Mach number solving the isentropic area–Mach relation

  (A/A*)² = (1/M²) · ( 2·(1 + (γ−1)/2·M²) / (γ+1) )^((γ+1)/(γ−1))

by a decaying-step search, and maps this over a whole contour.

Modelling decisions:
* Python floats are idealised as exact rationals.  With the module's fixed
  `gamma = 1.4` the exponent `(gamma+1)/(gamma-1)` is exactly `6`, so the
  right-hand side is an exact rational function (see `exponent_eq` and
  `rs_closed_form`); every comparison in the search is decidable over ℚ.
* The unbounded `while` loops are given an explicit fuel parameter; `none`
  models "the loop has not finished within `fuel` iterations".  Every
  `some`-result is a faithful run of the Python loops.
* Division by zero in ℚ is total (`x / 0 = 0`); the Python code would raise
  `ZeroDivisionError` at `mach_no = 0`, which the exact model instead passes
  through with the junk value `rs 0 = 0` (the search then continues to
  negative Mach values; see `area_to_mach_crosses_zero`).
* `raise Exception(...)` is modelled as `Except.error`; the raised message
  `"Input must be >= than {radius_throat}"` mentions only the throat radius,
  which the error value `AmError.invalidGeometry radius_throat` records.
* The CSV/file I/O of `nozzle_contour_to_mach` is out of scope per the spec;
  the function is embedded on the in-memory sequence of `(x, y)` rows it
  reads, returning the `contour_mach` rows it writes.
-/

/-! ## Constants of `area_to_mach` (lines 30–34 of the source) -/

/-- `gamma = 1.4` -/
def gamma : ℚ := 1.4

/-- `tolerance = 0.000001` -/
def tolerance : ℚ := 0.000001

/-- `lower_limit = 1 - tolerance` -/
def lower_limit : ℚ := 1 - tolerance

/-- `upper_limit = 1 + tolerance` -/
def upper_limit : ℚ := 1 + tolerance

/-- `decimals = 5` -/
def decimals : ℕ := 5

/-- The exponent `(gamma + 1)/(gamma - 1)` of the source is exactly `6`:
the embedding may use a natural-number power. -/
theorem exponent_eq : (gamma + 1) / (gamma - 1) = (6 : ℚ) := by
  norm_num [gamma]

/-- Right side "rs" of the area–Mach relation (lines 60, 85–86, … of the
source), as a function of the current `mach_no`:
`rs = (1/mach_no²) * (2*(1 + ((gamma-1)*mach_no²)/2)/(gamma+1)) ^ ((gamma+1)/(gamma-1))`
with the exponent written as the natural number it equals (`exponent_eq`). -/
def rs (mach_no : ℚ) : ℚ :=
  (1 / mach_no ^ 2) *
    (2 * (1 + ((gamma - 1) * mach_no ^ 2) / 2) / (gamma + 1)) ^ (6 : ℕ)

theorem rs_one : rs 1 = 1 := by norm_num [rs, gamma]

/-- Closed form of `rs` used in the monotonicity proofs.  It also holds at
`mach_no = 0` where both sides are the junk value `0`. -/
theorem rs_closed_form (m : ℚ) : rs m = (5 + m ^ 2) ^ 6 / (46656 * m ^ 2) := by
  rcases eq_or_ne m 0 with h | h
  · simp [rs, h]
  · have h2 : m ^ 2 ≠ 0 := pow_ne_zero 2 h
    field_simp [rs, gamma]
    ring

/-! ## `np.around(·, decimals=5)` -/

/-- Round a rational to the nearest integer, halves to even
(the rounding mode of `numpy.around`). -/
def roundHalfEven (x : ℚ) : ℤ :=
  let n := ⌊x⌋
  let frac := x - n
  if frac < 1 / 2 then n
  else if 1 / 2 < frac then n + 1
  else if 2 ∣ n then n else n + 1

/-- `np.around(x, decimals=d)`. -/
def np_around (x : ℚ) (d : ℕ) : ℚ :=
  (roundHalfEven (x * 10 ^ d) : ℚ) / 10 ^ d

/-! ## The iterative search of `area_to_mach`

The Python numerical core is two nested-`while` blocks (lines 76–95 for the
subsonic branch, 96–116 for the supersonic one).  Each branch's outer loop
alternates the *same* two inner loops, in opposite order:

* `loop_hi`: `while i > upper_limit:` step, recompute, and flip-and-shrink
  the step (`step_size *= -0.1`) when the new ratio falls below
  `lower_limit` (source lines 77–83 / 105–111);
* `loop_lo`: `while i < lower_limit:` step, recompute, flip-and-shrink when
  the new ratio rises above `upper_limit` (source lines 84–90 / 98–104).

Both inner loops return the state `(mach_no, step_size, i)` at their guard's
exit; `none` is fuel exhaustion. -/

/-- Inner loop `while i > upper_limit` (subsonic lines 77–83, supersonic
lines 105–111). -/
def loop_hi : ℕ → ℚ → ℚ → ℚ → ℚ → Option (ℚ × ℚ × ℚ)
  | 0, _, mach_no, step_size, i =>
      if upper_limit < i then none else some (mach_no, step_size, i)
  | fuel + 1, ls, mach_no, step_size, i =>
      if upper_limit < i then
        let mach' := mach_no + step_size
        let i' := rs mach' / ls
        let step' := if i' < lower_limit then step_size * (-0.1) else step_size
        loop_hi fuel ls mach' step' i'
      else some (mach_no, step_size, i)

/-- Inner loop `while i < lower_limit` (subsonic lines 84–90, supersonic
lines 98–104). -/
def loop_lo : ℕ → ℚ → ℚ → ℚ → ℚ → Option (ℚ × ℚ × ℚ)
  | 0, _, mach_no, step_size, i =>
      if i < lower_limit then none else some (mach_no, step_size, i)
  | fuel + 1, ls, mach_no, step_size, i =>
      if i < lower_limit then
        let mach' := mach_no + step_size
        let i' := rs mach' / ls
        let step' := if upper_limit < i' then step_size * (-0.1) else step_size
        loop_lo fuel ls mach' step' i'
      else some (mach_no, step_size, i)

/-- Subsonic outer loop `while i < lower_limit or i > upper_limit` (lines
76–95): first the `i > upper_limit` inner loop, then the `i < lower_limit`
one; on exit, return `np.around(mach_no, decimals=5)`. -/
def sub_outer : ℕ → ℚ → ℚ → ℚ → ℚ → Option ℚ
  | 0, _, _, _, _ => none
  | fuel + 1, ls, mach_no, step_size, i =>
      if i < lower_limit ∨ upper_limit < i then
        match loop_hi (fuel + 1) ls mach_no step_size i with
        | none => none
        | some (m₁, s₁, i₁) =>
          match loop_lo (fuel + 1) ls m₁ s₁ i₁ with
          | none => none
          | some (m₂, s₂, i₂) => sub_outer fuel ls m₂ s₂ i₂
      else some (np_around mach_no decimals)

/-- Supersonic outer loop (lines 96–116): the same two inner loops in the
opposite order. -/
def sup_outer : ℕ → ℚ → ℚ → ℚ → ℚ → Option ℚ
  | 0, _, _, _, _ => none
  | fuel + 1, ls, mach_no, step_size, i =>
      if i < lower_limit ∨ upper_limit < i then
        match loop_lo (fuel + 1) ls mach_no step_size i with
        | none => none
        | some (m₁, s₁, i₁) =>
          match loop_hi (fuel + 1) ls m₁ s₁ i₁ with
          | none => none
          | some (m₂, s₂, i₂) => sup_outer fuel ls m₂ s₂ i₂
      else some (np_around mach_no decimals)

/-! ## `area_to_mach` -/

/-- The error raised at line 43 of the source:
`Exception("Input must be >= than {}".format(radius_throat))`.
The message carries only the throat radius. -/
inductive AmError
  | invalidGeometry (radius_throat : ℚ)
deriving DecidableEq

/-- The local area ratio squared, `ls` of the source (lines 54–57):
`local_area_ratio = radius_local² / radius_throat²`, `ls = local_area_ratio²`. -/
def lsOf (radius_local radius_throat : ℚ) : ℚ :=
  (radius_local ^ 2 / radius_throat ^ 2) ^ 2

/-- `area_to_mach(x_pos, radius_local, radius_throat)` (source lines 8–116),
with an explicit iteration budget `fuel` for the `while` loops.
`none` = the loops did not finish within `fuel` outer iterations. -/
def area_to_mach (fuel : ℕ) (x_pos radius_local radius_throat : ℚ) :
    Option (Except AmError ℚ) :=
  let mach_no : ℚ := 1
  let step_size : ℚ := -0.1
  if radius_local < radius_throat then
    some (.error (.invalidGeometry radius_throat))
  else
    let supersonic : Bool := ! decide (x_pos < 0)
    let ls := lsOf radius_local radius_throat
    let i := rs mach_no / ls
    if lower_limit < i ∧ i < upper_limit then
      some (.ok mach_no)
    else if supersonic = false then
      (sub_outer fuel ls mach_no step_size i).map .ok
    else
      (sup_outer fuel ls mach_no (step_size * (-1)) i).map .ok

/-! ## `nozzle_contour_to_mach`

Embedded on the in-memory rows `(x_nozzle, y_nozzle)` that the source reads
from its CSV file, returning the `contour_mach` rows `(x, y, M)` it writes
(lines 131–138).  The file parsing/serialisation around the loop is
mechanical I/O glue and out of the core's scope per the spec. -/

def nozzle_contour_to_mach (fuel : ℕ) :
    List (ℚ × ℚ) → ℚ → Option (Except AmError (List (ℚ × ℚ × ℚ)))
  | [], _ => some (.ok [])
  | (x, y) :: rest, radius_throat =>
      match area_to_mach fuel x y radius_throat with
      | none => none
      | some (.error e) => some (.error e)
      | some (.ok m) =>
        match nozzle_contour_to_mach fuel rest radius_throat with
        | none => none
        | some (.error e) => some (.error e)
        | some (.ok out) => some (.ok ((x, y, m) :: out))

/-! ## Basic facts about the constants and the rounding -/

theorem lower_lt_upper : lower_limit < upper_limit := by
  norm_num [lower_limit, upper_limit, tolerance]

theorem lower_pos : 0 < lower_limit := by
  norm_num [lower_limit, tolerance]

theorem roundHalfEven_le (x : ℚ) : (roundHalfEven x : ℚ) ≤ x + 1 / 2 := by
  have h1 : (⌊x⌋ : ℚ) ≤ x := Int.floor_le x
  have h2 : x < ⌊x⌋ + 1 := Int.lt_floor_add_one x
  simp only [roundHalfEven]
  split_ifs <;> push_cast <;> linarith

theorem le_roundHalfEven (x : ℚ) : x - 1 / 2 ≤ (roundHalfEven x : ℚ) := by
  have h1 : (⌊x⌋ : ℚ) ≤ x := Int.floor_le x
  have h2 : x < ⌊x⌋ + 1 := Int.lt_floor_add_one x
  simp only [roundHalfEven]
  split_ifs <;> push_cast <;> linarith

theorem floor_le_roundHalfEven (x : ℚ) : ⌊x⌋ ≤ roundHalfEven x := by
  simp only [roundHalfEven]
  split_ifs <;> omega

theorem roundHalfEven_le_floor_add_one (x : ℚ) : roundHalfEven x ≤ ⌊x⌋ + 1 := by
  simp only [roundHalfEven]
  split_ifs <;> omega

theorem roundHalfEven_mono {x y : ℚ} (h : x ≤ y) :
    roundHalfEven x ≤ roundHalfEven y := by
  rcases lt_or_eq_of_le (Int.floor_mono h) with hf | hf
  · calc roundHalfEven x ≤ ⌊x⌋ + 1 := roundHalfEven_le_floor_add_one x
      _ ≤ ⌊y⌋ := by omega
      _ ≤ roundHalfEven y := floor_le_roundHalfEven y
  · have hc : ((⌊x⌋ : ℚ)) = ((⌊y⌋ : ℚ)) := by exact_mod_cast hf
    have hx : x - (⌊x⌋ : ℚ) ≤ y - (⌊y⌋ : ℚ) := by linarith
    simp only [roundHalfEven]
    rw [hf] at hx ⊢
    split_ifs <;> first | omega | linarith

theorem np_around_le (x : ℚ) (d : ℕ) : np_around x d ≤ x + 1 / (2 * 10 ^ d) := by
  have hp : (0 : ℚ) < 10 ^ d := by positivity
  have h := roundHalfEven_le (x * 10 ^ d)
  rw [np_around, div_le_iff₀ hp]
  calc (roundHalfEven (x * 10 ^ d) : ℚ) ≤ x * 10 ^ d + 1 / 2 := h
    _ = (x + 1 / (2 * 10 ^ d)) * 10 ^ d := by field_simp; ring

theorem le_np_around (x : ℚ) (d : ℕ) : x - 1 / (2 * 10 ^ d) ≤ np_around x d := by
  have hp : (0 : ℚ) < 10 ^ d := by positivity
  have h := le_roundHalfEven (x * 10 ^ d)
  rw [np_around, le_div_iff₀ hp]
  calc (x - 1 / (2 * 10 ^ d)) * 10 ^ d = x * 10 ^ d - 1 / 2 := by field_simp; ring
    _ ≤ (roundHalfEven (x * 10 ^ d) : ℚ) := h

theorem np_around_mono {x y : ℚ} (d : ℕ) (h : x ≤ y) :
    np_around x d ≤ np_around y d := by
  have hp : (0 : ℚ) < 10 ^ d := by positivity
  have h1 : roundHalfEven (x * 10 ^ d) ≤ roundHalfEven (y * 10 ^ d) :=
    roundHalfEven_mono (by nlinarith)
  rw [np_around, np_around]
  gcongr


theorem np_around_one : np_around 1 decimals = 1 := by
  with_unfolding_all decide

/-! ## The state after a finished inner loop

`loop_hi`/`loop_lo` keep the invariant `i = rs mach_no / ls`, and can only
hand the state back once their guard is false. -/

theorem loop_hi_consistent (ls : ℚ) :
    ∀ fuel mach step i m' s' i', i = rs mach / ls →
      loop_hi fuel ls mach step i = some (m', s', i') →
      i' = rs m' / ls ∧ ¬ upper_limit < i' := by
  intro fuel
  induction fuel with
  | zero =>
    intro mach step i m' s' i' hi h
    rw [loop_hi] at h
    split_ifs at h with hg
    simp only [Option.some.injEq, Prod.mk.injEq] at h
    obtain ⟨rfl, rfl, rfl⟩ := h
    exact ⟨hi, hg⟩
  | succ fuel ih =>
    intro mach step i m' s' i' hi h
    rw [loop_hi] at h
    split_ifs at h with hg
    · exact ih _ _ _ _ _ _ rfl h
    · simp only [Option.some.injEq, Prod.mk.injEq] at h
      obtain ⟨rfl, rfl, rfl⟩ := h
      exact ⟨hi, hg⟩

theorem loop_lo_consistent (ls : ℚ) :
    ∀ fuel mach step i m' s' i', i = rs mach / ls →
      loop_lo fuel ls mach step i = some (m', s', i') →
      i' = rs m' / ls ∧ ¬ i' < lower_limit := by
  intro fuel
  induction fuel with
  | zero =>
    intro mach step i m' s' i' hi h
    rw [loop_lo] at h
    split_ifs at h with hg
    simp only [Option.some.injEq, Prod.mk.injEq] at h
    obtain ⟨rfl, rfl, rfl⟩ := h
    exact ⟨hi, hg⟩
  | succ fuel ih =>
    intro mach step i m' s' i' hi h
    rw [loop_lo] at h
    split_ifs at h with hg
    · exact ih _ _ _ _ _ _ rfl h
    · simp only [Option.some.injEq, Prod.mk.injEq] at h
      obtain ⟨rfl, rfl, rfl⟩ := h
      exact ⟨hi, hg⟩

/-- When the subsonic outer loop finishes, the returned value is
`np.around` of a Mach value whose ratio `rs/ls` lies in the closed
tolerance band. -/
theorem sub_outer_band (ls : ℚ) :
    ∀ fuel mach step i M, i = rs mach / ls →
      sub_outer fuel ls mach step i = some M →
      ∃ m₀, M = np_around m₀ decimals ∧
        lower_limit ≤ rs m₀ / ls ∧ rs m₀ / ls ≤ upper_limit := by
  intro fuel
  induction fuel with
  | zero =>
    intro mach step i M hi h
    rw [sub_outer] at h
    exact absurd h (by simp)
  | succ fuel ih =>
    intro mach step i M hi h
    rw [sub_outer] at h
    split_ifs at h with hg
    · split at h
      · exact absurd h (by simp)
      · rename_i m₁ s₁ i₁ h1
        obtain ⟨hi₁, -⟩ := loop_hi_consistent ls _ _ _ _ _ _ _ hi h1
        split at h
        · exact absurd h (by simp)
        · rename_i m₂ s₂ i₂ h2
          obtain ⟨hi₂, -⟩ := loop_lo_consistent ls _ _ _ _ _ _ _ hi₁ h2
          exact ih _ _ _ _ hi₂ h
    · push_neg at hg
      simp only [Option.some.injEq] at h
      exact ⟨mach, h.symm, by rw [← hi]; exact hg.1, by rw [← hi]; exact hg.2⟩

/-- Supersonic counterpart of `sub_outer_band`. -/
theorem sup_outer_band (ls : ℚ) :
    ∀ fuel mach step i M, i = rs mach / ls →
      sup_outer fuel ls mach step i = some M →
      ∃ m₀, M = np_around m₀ decimals ∧
        lower_limit ≤ rs m₀ / ls ∧ rs m₀ / ls ≤ upper_limit := by
  intro fuel
  induction fuel with
  | zero =>
    intro mach step i M hi h
    rw [sup_outer] at h
    exact absurd h (by simp)
  | succ fuel ih =>
    intro mach step i M hi h
    rw [sup_outer] at h
    split_ifs at h with hg
    · split at h
      · exact absurd h (by simp)
      · rename_i m₁ s₁ i₁ h1
        obtain ⟨hi₁, -⟩ := loop_lo_consistent ls _ _ _ _ _ _ _ hi h1
        split at h
        · exact absurd h (by simp)
        · rename_i m₂ s₂ i₂ h2
          obtain ⟨hi₂, -⟩ := loop_hi_consistent ls _ _ _ _ _ _ _ hi₁ h2
          exact ih _ _ _ _ hi₂ h
    · push_neg at hg
      simp only [Option.some.injEq] at h
      exact ⟨mach, h.symm, by rw [← hi]; exact hg.1, by rw [← hi]; exact hg.2⟩

/-! ## Case analysis of `area_to_mach` -/

/-- The geometry check (source lines 42–43) fires before anything else, for
any fuel — in particular with a zero iteration budget. -/
theorem area_to_mach_invalid (fuel : ℕ) (x r rt : ℚ) (h : r < rt) :
    area_to_mach fuel x r rt = some (.error (.invalidGeometry rt)) := by
  simp [area_to_mach, h]

/-- The trivial case (source lines 69–71): when the initial ratio is already
strictly inside the band, `mach_no = 1` is returned untouched, whatever the
sign of `x_pos` and whatever the fuel. -/
theorem area_to_mach_trivial (fuel : ℕ) (x r rt : ℚ) (hge : ¬ r < rt)
    (h1 : lower_limit < rs 1 / lsOf r rt) (h2 : rs 1 / lsOf r rt < upper_limit) :
    area_to_mach fuel x r rt = some (.ok 1) := by
  simp [area_to_mach, hge, h1, h2]

/-- A negative `x_pos` selects the subsonic search (source lines 48–51, 75). -/
theorem area_to_mach_sub (fuel : ℕ) (x r rt : ℚ) (hge : ¬ r < rt) (hx : x < 0)
    (hcond : ¬ (lower_limit < rs 1 / lsOf r rt ∧ rs 1 / lsOf r rt < upper_limit)) :
    area_to_mach fuel x r rt =
      (sub_outer fuel (lsOf r rt) 1 (-0.1) (rs 1 / lsOf r rt)).map Except.ok := by
  simp [area_to_mach, hge, hcond, decide_eq_true hx]

/-- A non-negative `x_pos` selects the supersonic search (source lines
48–51, 96–97), with the step sign reversed. -/
theorem area_to_mach_sup (fuel : ℕ) (x r rt : ℚ) (hge : ¬ r < rt) (hx : 0 ≤ x)
    (hcond : ¬ (lower_limit < rs 1 / lsOf r rt ∧ rs 1 / lsOf r rt < upper_limit)) :
    area_to_mach fuel x r rt =
      (sup_outer fuel (lsOf r rt) 1 (-0.1 * -1) (rs 1 / lsOf r rt)).map Except.ok := by
  simp [area_to_mach, hge, hcond, decide_eq_false (not_lt.mpr hx)]

/-- C1 (amended).  Whenever the solver returns a Mach number, that number is
`np.around(m₀, 5)` for a pre-rounding iterate `m₀` whose ratio
`rs m₀ / areaRatio²` lies within the closed tolerance band
`[1 - tolerance, 1 + tolerance]`.  (The claim as stated — that the *returned*
value satisfies the band — fails because of the final rounding to 5 decimal
places; see `c1_rounding_counterexample`.) -/
theorem c1_solver_band_before_rounding :
    ∀ fuel x r rt M, area_to_mach fuel x r rt = some (.ok M) →
      ∃ m₀, M = np_around m₀ decimals ∧
        lower_limit ≤ rs m₀ / lsOf r rt ∧ rs m₀ / lsOf r rt ≤ upper_limit := by
  intro fuel x r rt M h
  by_cases hge : r < rt
  · rw [area_to_mach_invalid fuel x r rt hge] at h
    exact absurd h (by simp)
  · by_cases hcond : lower_limit < rs 1 / lsOf r rt ∧ rs 1 / lsOf r rt < upper_limit
    · rw [area_to_mach_trivial fuel x r rt hge hcond.1 hcond.2] at h
      simp only [Option.some.injEq, Except.ok.injEq] at h
      exact ⟨1, by rw [← h, np_around_one], le_of_lt hcond.1, le_of_lt hcond.2⟩
    · by_cases hx : x < 0
      · rw [area_to_mach_sub fuel x r rt hge hx hcond] at h
        rw [Option.map_eq_some'] at h
        obtain ⟨M₀, hM₀, hok⟩ := h
        simp only [Except.ok.injEq] at hok
        subst hok
        exact sub_outer_band _ _ _ _ _ _ rfl hM₀
      · rw [area_to_mach_sup fuel x r rt hge (not_lt.mp hx) hcond] at h
        rw [Option.map_eq_some'] at h
        obtain ⟨M₀, hM₀, hok⟩ := h
        simp only [Except.ok.injEq] at hok
        subst hok
        exact sup_outer_band _ _ _ _ _ _ rfl hM₀

/-- C1 counterexample.  At `x_pos = 1`, `radius_local = 2`,
`radius_throat = 1` (area ratio 4, the spec's own worked example) the solver
returns `2.94018`, whose ratio `rs/ls` lies strictly *above* the band:
the claim "`f(M)/areaRatio²` lies within `[1 - 1e-6, 1 + 1e-6]` for the
returned `M`" is false for the code. -/
theorem c1_rounding_counterexample :
    area_to_mach 200 1 2 1 = some (.ok (147009 / 50000)) ∧
    upper_limit < rs (147009 / 50000) / lsOf 2 1 := by
  constructor
  · with_unfolding_all rfl
  · with_unfolding_all decide

theorem c1_solver_band_before_rounding_witness :
    area_to_mach 0 (-1) 1 1 = some (.ok 1) ∧
    ∃ m₀, (1 : ℚ) = np_around m₀ decimals ∧
      lower_limit ≤ rs m₀ / lsOf 1 1 ∧ rs m₀ / lsOf 1 1 ≤ upper_limit :=
  ⟨by with_unfolding_all rfl,
   c1_solver_band_before_rounding 0 (-1) 1 1 1 (by with_unfolding_all rfl)⟩

/-- C2.  At the throat (`radius_local = radius_throat`, any nonzero throat
radius) the solver returns exactly `1` for any axial position — either
regime — and any fuel (including `0`: no iteration happens).  More
generally `1` is returned immediately regardless of regime whenever the
target is within tolerance of `f(1) = 1` (for positive radii,
`areaRatio² ≤ 1 + tolerance`); the third conjunct is the code's exact
trivial-case condition on the initial ratio `rs 1 / areaRatio²`. -/
theorem c2_throat_returns_one :
    (∀ fuel (x rt : ℚ), rt ≠ 0 → area_to_mach fuel x rt rt = some (.ok 1)) ∧
    (∀ fuel (x r rt : ℚ), 0 < rt → ¬ r < rt → lsOf r rt ≤ 1 + tolerance →
      area_to_mach fuel x r rt = some (.ok 1)) ∧
    (∀ fuel (x r rt : ℚ), ¬ r < rt →
      lower_limit < rs 1 / lsOf r rt → rs 1 / lsOf r rt < upper_limit →
      area_to_mach fuel x r rt = some (.ok 1)) := by
  refine ⟨fun fuel x rt hrt => ?_, fun fuel x r rt hrt hge hband => ?_,
    fun fuel x r rt hge h1 h2 => area_to_mach_trivial fuel x r rt hge h1 h2⟩
  · have hls : lsOf rt rt = 1 := by
      rw [lsOf, div_self (pow_ne_zero 2 hrt), one_pow]
    refine area_to_mach_trivial fuel x rt rt (lt_irrefl rt) ?_ ?_ <;>
      rw [hls, rs_one] <;> norm_num [lower_limit, upper_limit, tolerance]
  · have hrr : rt ≤ r := not_lt.mp hge
    have hrt2 : (0 : ℚ) < rt ^ 2 := by positivity
    have hsq : rt ^ 2 ≤ r ^ 2 := by nlinarith
    have hone : (1 : ℚ) ≤ r ^ 2 / rt ^ 2 := (one_le_div hrt2).mpr hsq
    have hls1 : (1 : ℚ) ≤ lsOf r rt := by
      rw [lsOf]
      exact one_le_pow₀ hone
    have hpos : (0 : ℚ) < lsOf r rt := lt_of_lt_of_le zero_lt_one hls1
    have htol : (0 : ℚ) < tolerance := by norm_num [tolerance]
    refine area_to_mach_trivial fuel x r rt hge ?_ ?_ <;> rw [rs_one]
    · rw [lt_div_iff₀ hpos]
      calc lower_limit * lsOf r rt ≤ lower_limit * (1 + tolerance) :=
            mul_le_mul_of_nonneg_left hband lower_pos.le
        _ < 1 := by norm_num [lower_limit, tolerance]
    · calc (1 : ℚ) / lsOf r rt ≤ 1 := by
            rw [div_le_one hpos]
            exact hls1
        _ < upper_limit := by norm_num [upper_limit, tolerance]

theorem c2_throat_returns_one_witness :
    area_to_mach 0 (-5) 1 1 = some (.ok 1) ∧
    area_to_mach 0 5 1 1 = some (.ok 1) ∧
    area_to_mach 0 7 (1000000001 / 1000000000) 1 = some (.ok 1) :=
  ⟨c2_throat_returns_one.1 0 (-5) 1 one_ne_zero,
   c2_throat_returns_one.1 0 5 1 one_ne_zero,
   c2_throat_returns_one.2.1 0 7 (1000000001 / 1000000000) 1 (by norm_num)
     (by norm_num) (by with_unfolding_all decide)⟩

/-- C4.  Whenever `radius_local < radius_throat` (equivalently, for positive
radii, area ratio below 1) the solver fails with the `InvalidGeometry`
error carrying the throat radius (source lines 42–43), for either regime
(any `x_pos`) and before any iterative solving is attempted: the result is
the same even with a zero iteration budget.  In particular any input
realising area ratio `0.5` fails this way. -/
theorem c4_invalid_geometry :
    ∀ fuel (x r rt : ℚ), r < rt →
      area_to_mach fuel x r rt = some (.error (.invalidGeometry rt)) :=
  fun fuel x r rt h => area_to_mach_invalid fuel x r rt h

theorem c4_invalid_geometry_witness :
    (1 : ℚ) < 2 ∧ area_to_mach 0 5 1 2 = some (.error (.invalidGeometry 2)) :=
  ⟨by norm_num, c4_invalid_geometry 0 5 1 2 (by norm_num)⟩

/-- C9.  The regime is a function of the sign of the axial position only:
two negative positions (or two non-negative ones) give identical results
whatever the radii, and the branch taken is the subsonic search exactly for
`x_pos < 0`, the supersonic search exactly for `x_pos ≥ 0` — never decided
by the area ratio. -/
theorem c9_regime_from_sign :
    (∀ fuel (x₁ x₂ r rt : ℚ), x₁ < 0 → x₂ < 0 →
        area_to_mach fuel x₁ r rt = area_to_mach fuel x₂ r rt) ∧
    (∀ fuel (x₁ x₂ r rt : ℚ), 0 ≤ x₁ → 0 ≤ x₂ →
        area_to_mach fuel x₁ r rt = area_to_mach fuel x₂ r rt) ∧
    (∀ fuel (x r rt : ℚ), x < 0 → ¬ r < rt →
        ¬ (lower_limit < rs 1 / lsOf r rt ∧ rs 1 / lsOf r rt < upper_limit) →
        area_to_mach fuel x r rt =
          (sub_outer fuel (lsOf r rt) 1 (-0.1) (rs 1 / lsOf r rt)).map Except.ok) ∧
    (∀ fuel (x r rt : ℚ), 0 ≤ x → ¬ r < rt →
        ¬ (lower_limit < rs 1 / lsOf r rt ∧ rs 1 / lsOf r rt < upper_limit) →
        area_to_mach fuel x r rt =
          (sup_outer fuel (lsOf r rt) 1 (-0.1 * -1) (rs 1 / lsOf r rt)).map Except.ok) := by
  refine ⟨fun fuel x₁ x₂ r rt h₁ h₂ => ?_, fun fuel x₁ x₂ r rt h₁ h₂ => ?_,
    fun fuel x r rt hx hge hcond => area_to_mach_sub fuel x r rt hge hx hcond,
    fun fuel x r rt hx hge hcond => area_to_mach_sup fuel x r rt hge hx hcond⟩
  · simp only [area_to_mach, decide_eq_true h₁, decide_eq_true h₂]
  · simp only [area_to_mach, decide_eq_false (not_lt.mpr h₁),
      decide_eq_false (not_lt.mpr h₂)]

theorem c9_regime_from_sign_witness :
    area_to_mach 0 (-1) 1 1 = area_to_mach 0 (-2) 1 1 ∧
    area_to_mach 0 0 1 1 = area_to_mach 0 7 1 1 :=
  ⟨c9_regime_from_sign.1 0 (-1) (-2) 1 1 (by norm_num) (by norm_num),
   c9_regime_from_sign.2.1 0 0 7 1 1 le_rfl (by norm_num)⟩

/-! ## The contour profiler -/

theorem area_to_mach_ok_not_invalid (fuel : ℕ) (x y rt m : ℚ)
    (h : area_to_mach fuel x y rt = some (.ok m)) : ¬ y < rt := by
  intro hlt
  rw [area_to_mach_invalid fuel x y rt hlt] at h
  simp at h

/-- The only error the solver can produce is `InvalidGeometry`, and its
payload is the throat radius alone — no index, no position. -/
theorem area_to_mach_error_eq (fuel : ℕ) (x y rt : ℚ) (e : AmError)
    (h : area_to_mach fuel x y rt = some (.error e)) :
    e = .invalidGeometry rt := by
  by_cases hlt : y < rt
  · rw [area_to_mach_invalid fuel x y rt hlt] at h
    simp only [Option.some.injEq, Except.error.injEq] at h
    exact h.symm
  · by_cases hcond : lower_limit < rs 1 / lsOf y rt ∧ rs 1 / lsOf y rt < upper_limit
    · rw [area_to_mach_trivial fuel x y rt hlt hcond.1 hcond.2] at h
      simp at h
    · by_cases hx : x < 0
      · rw [area_to_mach_sub fuel x y rt hlt hx hcond] at h
        rw [Option.map_eq_some'] at h
        obtain ⟨a, -, ha⟩ := h
        simp at ha
      · rw [area_to_mach_sup fuel x y rt hlt (not_lt.mp hx) hcond] at h
        rw [Option.map_eq_some'] at h
        obtain ⟨a, -, ha⟩ := h
        simp at ha

/-- C5.  If every per-point solve succeeds, the profiler succeeds and
produces exactly one `(x, y, M)` row per input `(x, y)` row, in order: the
output has the input's length and projecting each row back to `(x, y)`
returns the input sequence unchanged. -/
theorem c5_profile_order_preserving :
    ∀ fuel (points : List (ℚ × ℚ)) (rt : ℚ),
      (∀ p ∈ points, ∃ m, area_to_mach fuel p.1 p.2 rt = some (.ok m)) →
      ∃ out, nozzle_contour_to_mach fuel points rt = some (.ok out) ∧
        out.length = points.length ∧
        out.map (fun t => (t.1, t.2.1)) = points := by
  intro fuel points rt
  induction points with
  | nil => exact fun _ => ⟨[], by rw [nozzle_contour_to_mach], rfl, rfl⟩
  | cons p rest ih =>
    intro hall
    obtain ⟨x, y⟩ := p
    obtain ⟨m, hm⟩ := hall (x, y) (by simp)
    obtain ⟨out, hout, hlen, hmap⟩ := ih fun q hq => hall q (by simp [hq])
    refine ⟨(x, y, m) :: out, ?_, by simp [hlen], by simp [hmap]⟩
    rw [nozzle_contour_to_mach, hm, hout]

theorem c5_profile_order_preserving_witness :
    nozzle_contour_to_mach 1 [((-1 : ℚ), (1 : ℚ)), (0, 1), (1, 1)] 1 =
      some (.ok [((-1 : ℚ), (1 : ℚ), (1 : ℚ)), (0, 1, 1), (1, 1, 1)]) ∧
    [((-1 : ℚ), (1 : ℚ), (1 : ℚ)), (0, 1, 1), (1, 1, 1)].length =
      [((-1 : ℚ), (1 : ℚ)), (0, 1), (1, 1)].length ∧
    [((-1 : ℚ), (1 : ℚ), (1 : ℚ)), (0, 1, 1), (1, 1, 1)].map
        (fun t => (t.1, t.2.1)) = [((-1 : ℚ), (1 : ℚ)), (0, 1), (1, 1)] := by
  have h2 : nozzle_contour_to_mach 1 [((-1 : ℚ), (1 : ℚ)), (0, 1), (1, 1)] 1 =
      some (.ok [((-1 : ℚ), (1 : ℚ), (1 : ℚ)), (0, 1, 1), (1, 1, 1)]) := by
    with_unfolding_all rfl
  obtain ⟨out, hout, hlen, hmap⟩ :=
    c5_profile_order_preserving 1 [((-1 : ℚ), (1 : ℚ)), (0, 1), (1, 1)] 1
      (by
        intro p hp
        fin_cases hp <;> exact ⟨1, by with_unfolding_all rfl⟩)
  have heq : out = [((-1 : ℚ), (1 : ℚ), (1 : ℚ)), (0, 1, 1), (1, 1, 1)] := by
    rw [hout] at h2
    simpa using h2
  rw [heq] at hlen hmap
  exact ⟨h2, hlen, hmap⟩

/-- C6 (amended).  A failing point aborts the whole contour with no partial
output: a successful profile certifies every point had valid geometry, and
any failure surfaces as the solver's error — which carries the throat
radius only.  (The claim that the failure is *tagged with the offending
point's index and position* is false: the error value is independent of
which point failed; see `c6_untagged_error_counterexample`.) -/
theorem c6_failure_aborts_contour :
    ∀ fuel (points : List (ℚ × ℚ)) (rt : ℚ),
      (∀ out, nozzle_contour_to_mach fuel points rt = some (.ok out) →
        ∀ p ∈ points, ¬ p.2 < rt) ∧
      (∀ e, nozzle_contour_to_mach fuel points rt = some (.error e) →
        e = .invalidGeometry rt) := by
  intro fuel points rt
  induction points with
  | nil =>
    constructor
    · intro out _ p hp
      simp at hp
    · intro e he
      rw [nozzle_contour_to_mach] at he
      simp at he
  | cons p rest ih =>
    obtain ⟨x, y⟩ := p
    constructor
    · intro out hout q hq
      rw [nozzle_contour_to_mach] at hout
      split at hout
      · exact absurd hout (by simp)
      · exact absurd hout (by simp)
      · rename_i m hm
        split at hout
        · exact absurd hout (by simp)
        · exact absurd hout (by simp)
        · rename_i out' hout'
          rcases List.mem_cons.mp hq with rfl | hq'
          · exact area_to_mach_ok_not_invalid fuel x y rt m hm
          · exact ih.1 out' hout' q hq'
    · intro e he
      rw [nozzle_contour_to_mach] at he
      split at he
      · exact absurd he (by simp)
      · rename_i e' he'
        simp only [Option.some.injEq, Except.error.injEq] at he
        rw [← he]
        exact area_to_mach_error_eq fuel x y rt e' he'
      · rename_i m hm
        split at he
        · exact absurd he (by simp)
        · rename_i e' he'
          simp only [Option.some.injEq, Except.error.injEq] at he
          rw [← he]
          exact ih.2 e' he'
        · exact absurd he (by simp)

/-- C6 counterexample.  Two contours whose offending point sits at a
different index and a different axial position (index 0 at position −1,
versus index 1 at position 5) produce the *same* error value: the surfaced
failure records the throat radius only and is not tagged with the offending
point's index or position. -/
theorem c6_untagged_error_counterexample :
    nozzle_contour_to_mach 1 [((-1 : ℚ), (1 / 2 : ℚ)), (2, 1)] 1 =
      some (.error (.invalidGeometry 1)) ∧
    nozzle_contour_to_mach 1 [((0 : ℚ), (1 : ℚ)), (5, 1 / 2)] 1 =
      some (.error (.invalidGeometry 1)) :=
  ⟨by with_unfolding_all rfl, by with_unfolding_all rfl⟩

theorem c6_failure_aborts_contour_witness :
    nozzle_contour_to_mach 1 [((-1 : ℚ), (1 : ℚ))] 1 =
      some (.ok [((-1 : ℚ), (1 : ℚ), (1 : ℚ))]) ∧ ¬ (1 : ℚ) < 1 :=
  ⟨by with_unfolding_all rfl,
   (c6_failure_aborts_contour 1 [((-1 : ℚ), (1 : ℚ))] 1).1
     [((-1 : ℚ), (1 : ℚ), (1 : ℚ))] (by with_unfolding_all rfl)
     ((-1 : ℚ), (1 : ℚ)) (by simp)⟩

/-! ## Strict monotonicity of `rs` on the two branches

With `g u := (u+5)⁶/u` (so that `rs m = g (m²) / 46656`), the difference
`(u+5)⁶·v − (v+5)⁶·u` factors with `v − u`; the cofactor is positive while
`u, v ≤ 1` and negative while `u, v ≥ 1`, giving the strict decrease of `rs`
on `(0, 1]` and strict increase on `[1, ∞)`. -/

theorem g_identity (u v : ℚ) :
    (u + 5) ^ 6 * v - (v + 5) ^ 6 * u =
      (v - u) * (15625 - u * v *
        (9375 + 2500 * (u + v) + 375 * (u ^ 2 + u * v + v ^ 2)
          + 30 * (u ^ 3 + u ^ 2 * v + u * v ^ 2 + v ^ 3)
          + (u ^ 4 + u ^ 3 * v + u ^ 2 * v ^ 2 + u * v ^ 3 + v ^ 4))) := by
  ring

theorem g_lt_of_le_one {u v : ℚ} (hu : 0 < u) (huv : u < v) (hv : v ≤ 1) :
    (v + 5) ^ 6 * u < (u + 5) ^ 6 * v := by
  have h0u : (0 : ℚ) ≤ u := hu.le
  have h0v : (0 : ℚ) ≤ v := le_trans h0u huv.le
  have hu1 : u ≤ 1 := le_of_lt (lt_of_lt_of_le huv hv)
  have pu2 : u ^ 2 ≤ 1 := pow_le_one₀ h0u hu1
  have pu3 : u ^ 3 ≤ 1 := pow_le_one₀ h0u hu1
  have pu4 : u ^ 4 ≤ 1 := pow_le_one₀ h0u hu1
  have pv2 : v ^ 2 ≤ 1 := pow_le_one₀ h0v hv
  have pv3 : v ^ 3 ≤ 1 := pow_le_one₀ h0v hv
  have pv4 : v ^ 4 ≤ 1 := pow_le_one₀ h0v hv
  have m11 : u * v ≤ 1 := mul_le_one₀ hu1 h0v hv
  have m21 : u ^ 2 * v ≤ 1 := mul_le_one₀ pu2 h0v hv
  have m12 : u * v ^ 2 ≤ 1 := mul_le_one₀ hu1 (by positivity) pv2
  have m31 : u ^ 3 * v ≤ 1 := mul_le_one₀ pu3 h0v hv
  have m22 : u ^ 2 * v ^ 2 ≤ 1 := mul_le_one₀ pu2 (by positivity) pv2
  have m13 : u * v ^ 3 ≤ 1 := mul_le_one₀ hu1 (by positivity) pv3
  have hS1 : 9375 + 2500 * (u + v) + 375 * (u ^ 2 + u * v + v ^ 2)
      + 30 * (u ^ 3 + u ^ 2 * v + u * v ^ 2 + v ^ 3)
      + (u ^ 4 + u ^ 3 * v + u ^ 2 * v ^ 2 + u * v ^ 3 + v ^ 4) ≤ 15625 := by
    linarith
  have hS0 : 0 ≤ 9375 + 2500 * (u + v) + 375 * (u ^ 2 + u * v + v ^ 2)
      + 30 * (u ^ 3 + u ^ 2 * v + u * v ^ 2 + v ^ 3)
      + (u ^ 4 + u ^ 3 * v + u ^ 2 * v ^ 2 + u * v ^ 3 + v ^ 4) := by positivity
  have huv1 : u * v < 1 := lt_of_le_of_lt (mul_le_of_le_one_right h0u hv)
    (lt_of_lt_of_le huv hv)
  have hbr : 0 < 15625 - u * v *
      (9375 + 2500 * (u + v) + 375 * (u ^ 2 + u * v + v ^ 2)
        + 30 * (u ^ 3 + u ^ 2 * v + u * v ^ 2 + v ^ 3)
        + (u ^ 4 + u ^ 3 * v + u ^ 2 * v ^ 2 + u * v ^ 3 + v ^ 4)) := by
    nlinarith [mul_nonneg h0u h0v]
  nlinarith [g_identity u v, mul_pos (sub_pos.mpr huv) hbr]

theorem g_gt_of_one_le {u v : ℚ} (hu : 1 ≤ u) (huv : u < v) :
    (u + 5) ^ 6 * v < (v + 5) ^ 6 * u := by
  have h1v : (1 : ℚ) ≤ v := le_trans hu huv.le
  have h0u : (0 : ℚ) ≤ u := le_trans zero_le_one hu
  have h0v : (0 : ℚ) ≤ v := le_trans zero_le_one h1v
  have pu2 : 1 ≤ u ^ 2 := one_le_pow₀ hu
  have pu3 : 1 ≤ u ^ 3 := one_le_pow₀ hu
  have pu4 : 1 ≤ u ^ 4 := one_le_pow₀ hu
  have pv2 : 1 ≤ v ^ 2 := one_le_pow₀ h1v
  have pv3 : 1 ≤ v ^ 3 := one_le_pow₀ h1v
  have pv4 : 1 ≤ v ^ 4 := one_le_pow₀ h1v
  have m11 : 1 ≤ u * v := one_le_mul_of_one_le_of_one_le hu h1v
  have m21 : 1 ≤ u ^ 2 * v := one_le_mul_of_one_le_of_one_le pu2 h1v
  have m12 : 1 ≤ u * v ^ 2 := one_le_mul_of_one_le_of_one_le hu pv2
  have m31 : 1 ≤ u ^ 3 * v := one_le_mul_of_one_le_of_one_le pu3 h1v
  have m22 : 1 ≤ u ^ 2 * v ^ 2 := one_le_mul_of_one_le_of_one_le pu2 pv2
  have m13 : 1 ≤ u * v ^ 3 := one_le_mul_of_one_le_of_one_le hu pv3
  have hS1 : 15625 ≤ 9375 + 2500 * (u + v) + 375 * (u ^ 2 + u * v + v ^ 2)
      + 30 * (u ^ 3 + u ^ 2 * v + u * v ^ 2 + v ^ 3)
      + (u ^ 4 + u ^ 3 * v + u ^ 2 * v ^ 2 + u * v ^ 3 + v ^ 4) := by
    linarith
  have huv1 : 1 < u * v := lt_of_lt_of_le (lt_of_le_of_lt hu huv)
    (le_mul_of_one_le_left (by linarith) hu)
  have hbr : 15625 - u * v *
      (9375 + 2500 * (u + v) + 375 * (u ^ 2 + u * v + v ^ 2)
        + 30 * (u ^ 3 + u ^ 2 * v + u * v ^ 2 + v ^ 3)
        + (u ^ 4 + u ^ 3 * v + u ^ 2 * v ^ 2 + u * v ^ 3 + v ^ 4)) < 0 := by
    nlinarith
  nlinarith [g_identity u v, mul_neg_of_pos_of_neg (sub_pos.mpr huv) hbr]

/-- `rs` is strictly decreasing on `(0, 1]` (the subsonic branch). -/
theorem rs_anti {a b : ℚ} (ha : 0 < a) (hab : a < b) (hb : b ≤ 1) :
    rs b < rs a := by
  have hb0 : 0 < b := lt_trans ha hab
  have ha2 : (0 : ℚ) < a ^ 2 := by positivity
  have hb2 : (0 : ℚ) < b ^ 2 := by positivity
  have h2 : a ^ 2 < b ^ 2 := by nlinarith
  have hb21 : b ^ 2 ≤ 1 := pow_le_one₀ hb0.le hb
  have key := g_lt_of_le_one ha2 h2 hb21
  rw [rs_closed_form, rs_closed_form, div_lt_div_iff₀ (by positivity) (by positivity)]
  nlinarith [key]

/-- `rs` is strictly increasing on `[1, ∞)` (the supersonic branch). -/
theorem rs_mono {a b : ℚ} (ha : 1 ≤ a) (hab : a < b) :
    rs a < rs b := by
  have ha0 : (0 : ℚ) < a := lt_of_lt_of_le zero_lt_one ha
  have hb0 : (0 : ℚ) < b := lt_trans ha0 hab
  have ha2 : (1 : ℚ) ≤ a ^ 2 := one_le_pow₀ ha
  have h2 : a ^ 2 < b ^ 2 := by nlinarith
  have key := g_gt_of_one_le ha2 h2
  rw [rs_closed_form, rs_closed_form, div_lt_div_iff₀ (by positivity) (by positivity)]
  nlinarith [key]

theorem rs_anti_le {a b : ℚ} (ha : 0 < a) (hab : a ≤ b) (hb : b ≤ 1) :
    rs b ≤ rs a := by
  rcases eq_or_lt_of_le hab with rfl | h
  · exact le_rfl
  · exact le_of_lt (rs_anti ha h hb)

theorem rs_mono_le {a b : ℚ} (ha : 1 ≤ a) (hab : a ≤ b) :
    rs a ≤ rs b := by
  rcases eq_or_lt_of_le hab with rfl | h
  · exact le_rfl
  · exact le_of_lt (rs_mono ha h)

/-! ## Phase invariants of the two searches

The decaying-step search keeps `mach_no` on the decimal lattice anchored at
`1` (all steps so far were `±10^-j`, `j` at most the current exponent), its
step sign pointing back towards the band, and — for the subsonic branch —
never exceeds `1`; the supersonic branch mirrors this below by `1`.  The
hypothesis `rs 1 / ls < lower_limit` (the caller is outside the trivial
band, on the subsonic/supersonic side) makes `mach_no = 1` a wall: the
ratio there is below the band, so the guard that would step past `1`
is false at `1`. -/

def SubInv (ls mach step i : ℚ) : Prop :=
  i = rs mach / ls ∧ mach ≤ 1 ∧
  (i < lower_limit → step < 0) ∧ (upper_limit < i → 0 < step) ∧
  ∃ k : ℕ, 1 ≤ k ∧ (step = (1 / 10) ^ k ∨ step = -(1 / 10) ^ k) ∧
    ∃ n : ℤ, (1 : ℚ) - mach = n * (1 / 10) ^ k

def SupInv (ls mach step i : ℚ) : Prop :=
  i = rs mach / ls ∧ 1 ≤ mach ∧
  (i < lower_limit → 0 < step) ∧ (upper_limit < i → step < 0) ∧
  ∃ k : ℕ, 1 ≤ k ∧ (step = (1 / 10) ^ k ∨ step = -(1 / 10) ^ k) ∧
    ∃ n : ℤ, mach - 1 = n * (1 / 10) ^ k

theorem subinv_step_hi {ls mach step i : ℚ} (hls : rs 1 / ls < lower_limit)
    (hinv : SubInv ls mach step i) (hg : upper_limit < i) :
    SubInv ls (mach + step)
      (if rs (mach + step) / ls < lower_limit then step * (-0.1) else step)
      (rs (mach + step) / ls) := by
  obtain ⟨hi, hm1, -, hph2, k, hk, hsk, n, hn⟩ := hinv
  have hstep : 0 < step := hph2 hg
  have hp : (0 : ℚ) < (1 / 10) ^ k := by positivity
  have hsk' : step = (1 / 10) ^ k := by
    rcases hsk with h' | h'
    · exact h'
    · rw [h'] at hstep; linarith
  have hmne : mach ≠ 1 := by
    rintro rfl
    rw [hi] at hg
    linarith [lower_lt_upper]
  have hmlt : mach < 1 := lt_of_le_of_ne hm1 hmne
  have hn1 : (1 : ℚ) ≤ (n : ℚ) := by
    have h0 : (0 : ℚ) < (n : ℚ) * (1 / 10) ^ k := by rw [← hn]; linarith
    have h1 : (0 : ℚ) < (n : ℚ) := by nlinarith
    exact_mod_cast (by exact_mod_cast h1 : 0 < n)
  have hle : mach + step ≤ 1 := by
    have h2 : (1 / 10 : ℚ) ^ k ≤ (n : ℚ) * (1 / 10) ^ k := by nlinarith
    rw [hsk']
    linarith [hn]
  refine ⟨rfl, hle, ?_, ?_, ?_⟩
  · intro hlow
    rw [if_pos hlow]
    nlinarith
  · intro hup
    rw [if_neg (fun hlow => absurd hup (by linarith [lower_lt_upper]))]
    exact hstep
  · by_cases hlow : rs (mach + step) / ls < lower_limit
    · rw [if_pos hlow]
      refine ⟨k + 1, by omega, Or.inr ?_, ⟨10 * (n - 1), ?_⟩⟩
      · rw [hsk']
        rw [pow_succ]
        norm_num
      · push_cast
        rw [hsk']
        rw [pow_succ]
        linear_combination hn
    · rw [if_neg hlow]
      refine ⟨k, hk, hsk, ⟨n - 1, ?_⟩⟩
      push_cast
      rw [hsk']
      linear_combination hn

theorem subinv_step_lo {ls mach step i : ℚ}
    (hinv : SubInv ls mach step i) (hg : i < lower_limit) :
    SubInv ls (mach + step)
      (if upper_limit < rs (mach + step) / ls then step * (-0.1) else step)
      (rs (mach + step) / ls) := by
  obtain ⟨hi, hm1, hph1, -, k, hk, hsk, n, hn⟩ := hinv
  have hstep : step < 0 := hph1 hg
  have hp : (0 : ℚ) < (1 / 10) ^ k := by positivity
  have hsk' : step = -(1 / 10) ^ k := by
    rcases hsk with h' | h'
    · rw [h'] at hstep; linarith
    · exact h'
  have hle : mach + step ≤ 1 := by linarith
  refine ⟨rfl, hle, ?_, ?_, ?_⟩
  · intro hlow
    rw [if_neg (fun hup => absurd hlow (by linarith [lower_lt_upper]))]
    exact hstep
  · intro hup
    rw [if_pos hup]
    nlinarith
  · by_cases hup : upper_limit < rs (mach + step) / ls
    · rw [if_pos hup]
      refine ⟨k + 1, by omega, Or.inl ?_, ⟨10 * (n + 1), ?_⟩⟩
      · rw [hsk']
        rw [pow_succ]
        norm_num
      · push_cast
        rw [hsk']
        rw [pow_succ]
        linear_combination hn
    · rw [if_neg hup]
      refine ⟨k, hk, hsk, ⟨n + 1, ?_⟩⟩
      push_cast
      rw [hsk']
      linear_combination hn

theorem supinv_step_lo {ls mach step i : ℚ}
    (hinv : SupInv ls mach step i) (hg : i < lower_limit) :
    SupInv ls (mach + step)
      (if upper_limit < rs (mach + step) / ls then step * (-0.1) else step)
      (rs (mach + step) / ls) := by
  obtain ⟨hi, hm1, hph1, -, k, hk, hsk, n, hn⟩ := hinv
  have hstep : 0 < step := hph1 hg
  have hp : (0 : ℚ) < (1 / 10) ^ k := by positivity
  have hsk' : step = (1 / 10) ^ k := by
    rcases hsk with h' | h'
    · exact h'
    · rw [h'] at hstep; linarith
  have hle : 1 ≤ mach + step := by linarith
  refine ⟨rfl, hle, ?_, ?_, ?_⟩
  · intro hlow
    rw [if_neg (fun hup => absurd hlow (by linarith [lower_lt_upper]))]
    exact hstep
  · intro hup
    rw [if_pos hup]
    nlinarith
  · by_cases hup : upper_limit < rs (mach + step) / ls
    · rw [if_pos hup]
      refine ⟨k + 1, by omega, Or.inr ?_, ⟨10 * (n + 1), ?_⟩⟩
      · rw [hsk']
        rw [pow_succ]
        norm_num
      · push_cast
        rw [hsk']
        rw [pow_succ]
        linear_combination hn
    · rw [if_neg hup]
      refine ⟨k, hk, hsk, ⟨n + 1, ?_⟩⟩
      push_cast
      rw [hsk']
      linear_combination hn

theorem supinv_step_hi {ls mach step i : ℚ} (hls : rs 1 / ls < lower_limit)
    (hinv : SupInv ls mach step i) (hg : upper_limit < i) :
    SupInv ls (mach + step)
      (if rs (mach + step) / ls < lower_limit then step * (-0.1) else step)
      (rs (mach + step) / ls) := by
  obtain ⟨hi, hm1, -, hph2, k, hk, hsk, n, hn⟩ := hinv
  have hstep : step < 0 := hph2 hg
  have hp : (0 : ℚ) < (1 / 10) ^ k := by positivity
  have hsk' : step = -(1 / 10) ^ k := by
    rcases hsk with h' | h'
    · rw [h'] at hstep; linarith
    · exact h'
  have hmne : mach ≠ 1 := by
    rintro rfl
    rw [hi] at hg
    linarith [lower_lt_upper]
  have hmgt : 1 < mach := lt_of_le_of_ne hm1 (Ne.symm hmne)
  have hn1 : (1 : ℚ) ≤ (n : ℚ) := by
    have h0 : (0 : ℚ) < (n : ℚ) * (1 / 10) ^ k := by rw [← hn]; linarith
    have h1 : (0 : ℚ) < (n : ℚ) := by nlinarith
    exact_mod_cast (by exact_mod_cast h1 : 0 < n)
  have hle : 1 ≤ mach + step := by
    have h2 : (1 / 10 : ℚ) ^ k ≤ (n : ℚ) * (1 / 10) ^ k := by nlinarith
    rw [hsk']
    linarith [hn]
  refine ⟨rfl, hle, ?_, ?_, ?_⟩
  · intro hlow
    rw [if_pos hlow]
    nlinarith
  · intro hup
    rw [if_neg (fun hlow => absurd hup (by linarith [lower_lt_upper]))]
    exact hstep
  · by_cases hlow : rs (mach + step) / ls < lower_limit
    · rw [if_pos hlow]
      refine ⟨k + 1, by omega, Or.inl ?_, ⟨10 * (n - 1), ?_⟩⟩
      · rw [hsk']
        rw [pow_succ]
        norm_num
      · push_cast
        rw [hsk']
        rw [pow_succ]
        linear_combination hn
    · rw [if_neg hlow]
      refine ⟨k, hk, hsk, ⟨n - 1, ?_⟩⟩
      push_cast
      rw [hsk']
      linear_combination hn

theorem loop_hi_subinv (ls : ℚ) (hls : rs 1 / ls < lower_limit) :
    ∀ fuel mach step i m' s' i', SubInv ls mach step i →
      loop_hi fuel ls mach step i = some (m', s', i') →
      SubInv ls m' s' i' ∧ ¬ upper_limit < i' := by
  intro fuel
  induction fuel with
  | zero =>
    intro mach step i m' s' i' hinv h
    rw [loop_hi] at h
    split_ifs at h with hg
    simp only [Option.some.injEq, Prod.mk.injEq] at h
    obtain ⟨rfl, rfl, rfl⟩ := h
    exact ⟨hinv, hg⟩
  | succ fuel ih =>
    intro mach step i m' s' i' hinv h
    rw [loop_hi] at h
    split_ifs at h with hg
    · exact ih _ _ _ _ _ _ (subinv_step_hi hls hinv hg) h
    · simp only [Option.some.injEq, Prod.mk.injEq] at h
      obtain ⟨rfl, rfl, rfl⟩ := h
      exact ⟨hinv, hg⟩

theorem loop_lo_subinv (ls : ℚ) :
    ∀ fuel mach step i m' s' i', SubInv ls mach step i →
      loop_lo fuel ls mach step i = some (m', s', i') →
      SubInv ls m' s' i' ∧ ¬ i' < lower_limit := by
  intro fuel
  induction fuel with
  | zero =>
    intro mach step i m' s' i' hinv h
    rw [loop_lo] at h
    split_ifs at h with hg
    simp only [Option.some.injEq, Prod.mk.injEq] at h
    obtain ⟨rfl, rfl, rfl⟩ := h
    exact ⟨hinv, hg⟩
  | succ fuel ih =>
    intro mach step i m' s' i' hinv h
    rw [loop_lo] at h
    split_ifs at h with hg
    · exact ih _ _ _ _ _ _ (subinv_step_lo hinv hg) h
    · simp only [Option.some.injEq, Prod.mk.injEq] at h
      obtain ⟨rfl, rfl, rfl⟩ := h
      exact ⟨hinv, hg⟩

theorem loop_lo_supinv (ls : ℚ) :
    ∀ fuel mach step i m' s' i', SupInv ls mach step i →
      loop_lo fuel ls mach step i = some (m', s', i') →
      SupInv ls m' s' i' ∧ ¬ i' < lower_limit := by
  intro fuel
  induction fuel with
  | zero =>
    intro mach step i m' s' i' hinv h
    rw [loop_lo] at h
    split_ifs at h with hg
    simp only [Option.some.injEq, Prod.mk.injEq] at h
    obtain ⟨rfl, rfl, rfl⟩ := h
    exact ⟨hinv, hg⟩
  | succ fuel ih =>
    intro mach step i m' s' i' hinv h
    rw [loop_lo] at h
    split_ifs at h with hg
    · exact ih _ _ _ _ _ _ (supinv_step_lo hinv hg) h
    · simp only [Option.some.injEq, Prod.mk.injEq] at h
      obtain ⟨rfl, rfl, rfl⟩ := h
      exact ⟨hinv, hg⟩

theorem loop_hi_supinv (ls : ℚ) (hls : rs 1 / ls < lower_limit) :
    ∀ fuel mach step i m' s' i', SupInv ls mach step i →
      loop_hi fuel ls mach step i = some (m', s', i') →
      SupInv ls m' s' i' ∧ ¬ upper_limit < i' := by
  intro fuel
  induction fuel with
  | zero =>
    intro mach step i m' s' i' hinv h
    rw [loop_hi] at h
    split_ifs at h with hg
    simp only [Option.some.injEq, Prod.mk.injEq] at h
    obtain ⟨rfl, rfl, rfl⟩ := h
    exact ⟨hinv, hg⟩
  | succ fuel ih =>
    intro mach step i m' s' i' hinv h
    rw [loop_hi] at h
    split_ifs at h with hg
    · exact ih _ _ _ _ _ _ (supinv_step_hi hls hinv hg) h
    · simp only [Option.some.injEq, Prod.mk.injEq] at h
      obtain ⟨rfl, rfl, rfl⟩ := h
      exact ⟨hinv, hg⟩

/-- Subsonic outer loop with the full invariant: the pre-rounding exit
value is in the closed band and is at most `1`. -/
theorem sub_outer_subinv (ls : ℚ) (hls : rs 1 / ls < lower_limit) :
    ∀ fuel mach step i M, SubInv ls mach step i →
      sub_outer fuel ls mach step i = some M →
      ∃ m₀, M = np_around m₀ decimals ∧ m₀ ≤ 1 ∧
        lower_limit ≤ rs m₀ / ls ∧ rs m₀ / ls ≤ upper_limit := by
  intro fuel
  induction fuel with
  | zero =>
    intro mach step i M hinv h
    rw [sub_outer] at h
    exact absurd h (by simp)
  | succ fuel ih =>
    intro mach step i M hinv h
    rw [sub_outer] at h
    split_ifs at h with hg
    · split at h
      · exact absurd h (by simp)
      · rename_i m₁ s₁ i₁ h1
        obtain ⟨hinv₁, -⟩ := loop_hi_subinv ls hls _ _ _ _ _ _ _ hinv h1
        split at h
        · exact absurd h (by simp)
        · rename_i m₂ s₂ i₂ h2
          obtain ⟨hinv₂, -⟩ := loop_lo_subinv ls _ _ _ _ _ _ _ hinv₁ h2
          exact ih _ _ _ _ hinv₂ h
    · push_neg at hg
      simp only [Option.some.injEq] at h
      obtain ⟨hi, hm1, -⟩ := hinv
      exact ⟨mach, h.symm, hm1, by rw [← hi]; exact hg.1, by rw [← hi]; exact hg.2⟩

/-- Supersonic outer loop with the full invariant: the pre-rounding exit
value is in the closed band and is at least `1`. -/
theorem sup_outer_supinv (ls : ℚ) (hls : rs 1 / ls < lower_limit) :
    ∀ fuel mach step i M, SupInv ls mach step i →
      sup_outer fuel ls mach step i = some M →
      ∃ m₀, M = np_around m₀ decimals ∧ 1 ≤ m₀ ∧
        lower_limit ≤ rs m₀ / ls ∧ rs m₀ / ls ≤ upper_limit := by
  intro fuel
  induction fuel with
  | zero =>
    intro mach step i M hinv h
    rw [sup_outer] at h
    exact absurd h (by simp)
  | succ fuel ih =>
    intro mach step i M hinv h
    rw [sup_outer] at h
    split_ifs at h with hg
    · split at h
      · exact absurd h (by simp)
      · rename_i m₁ s₁ i₁ h1
        obtain ⟨hinv₁, -⟩ := loop_lo_supinv ls _ _ _ _ _ _ _ hinv h1
        split at h
        · exact absurd h (by simp)
        · rename_i m₂ s₂ i₂ h2
          obtain ⟨hinv₂, -⟩ := loop_hi_supinv ls hls _ _ _ _ _ _ _ hinv₁ h2
          exact ih _ _ _ _ hinv₂ h
    · push_neg at hg
      simp only [Option.some.injEq] at h
      obtain ⟨hi, hm1, -⟩ := hinv
      exact ⟨mach, h.symm, hm1, by rw [← hi]; exact hg.1, by rw [← hi]; exact hg.2⟩

/-- The invariant at the subsonic entry state (`mach_no = 1`,
`step_size = -0.1`), given the caller is below the band. -/
theorem subinv_entry (ls : ℚ) (hls : rs 1 / ls < lower_limit) :
    SubInv ls 1 (-0.1) (rs 1 / ls) := by
  refine ⟨rfl, le_rfl, fun _ => by norm_num, fun hup => ?_, 1, le_rfl, Or.inr (by norm_num),
    0, by norm_num⟩
  linarith [lower_lt_upper]

/-- The invariant at the supersonic entry state (`step_size * -1 = 0.1`). -/
theorem supinv_entry (ls : ℚ) (hls : rs 1 / ls < lower_limit) :
    SupInv ls 1 (-0.1 * -1) (rs 1 / ls) := by
  refine ⟨rfl, le_rfl, fun _ => by norm_num, fun hup => ?_, 1, le_rfl, Or.inl (by norm_num),
    0, by norm_num⟩
  linarith [lower_lt_upper]

/-! ## Single steps of the inner loops, and fuel monotonicity

The lemmas below unfold one guard test or one body iteration; the extra
equalities `hv`/`hs` let call sites state the stepped Mach value and the
shrunk step in normalised form. -/

theorem loop_hi_exit {fuel : ℕ} {ls mach step i : ℚ} (h : ¬ upper_limit < i) :
    loop_hi fuel ls mach step i = some (mach, step, i) := by
  cases fuel <;> (rw [loop_hi]; rw [if_neg h])

theorem loop_lo_exit {fuel : ℕ} {ls mach step i : ℚ} (h : ¬ i < lower_limit) :
    loop_lo fuel ls mach step i = some (mach, step, i) := by
  cases fuel <;> (rw [loop_lo]; rw [if_neg h])

theorem loop_hi_cont (fuel : ℕ) (v : ℚ) {ls mach step i : ℚ}
    (hv : mach + step = v) (h : upper_limit < i)
    (hnf : ¬ rs v / ls < lower_limit) :
    loop_hi (fuel + 1) ls mach step i = loop_hi fuel ls v step (rs v / ls) := by
  rw [loop_hi, if_pos h]
  show loop_hi fuel ls (mach + step)
      (if rs (mach + step) / ls < lower_limit then step * (-0.1) else step)
      (rs (mach + step) / ls) = _
  rw [hv, if_neg hnf]

theorem loop_hi_flipexit (fuel : ℕ) (v s' : ℚ) {ls mach step i : ℚ}
    (hv : mach + step = v) (hs : step * (-0.1) = s') (h : upper_limit < i)
    (hf : rs v / ls < lower_limit) :
    loop_hi (fuel + 1) ls mach step i = some (v, s', rs v / ls) := by
  rw [loop_hi, if_pos h]
  show loop_hi fuel ls (mach + step)
      (if rs (mach + step) / ls < lower_limit then step * (-0.1) else step)
      (rs (mach + step) / ls) = _
  rw [hv, if_pos hf, hs]
  exact loop_hi_exit (by linarith [lower_lt_upper])

theorem loop_lo_cont (fuel : ℕ) (v : ℚ) {ls mach step i : ℚ}
    (hv : mach + step = v) (h : i < lower_limit)
    (hnf : ¬ upper_limit < rs v / ls) :
    loop_lo (fuel + 1) ls mach step i = loop_lo fuel ls v step (rs v / ls) := by
  rw [loop_lo, if_pos h]
  show loop_lo fuel ls (mach + step)
      (if upper_limit < rs (mach + step) / ls then step * (-0.1) else step)
      (rs (mach + step) / ls) = _
  rw [hv, if_neg hnf]

theorem loop_lo_flipexit (fuel : ℕ) (v s' : ℚ) {ls mach step i : ℚ}
    (hv : mach + step = v) (hs : step * (-0.1) = s') (h : i < lower_limit)
    (hf : upper_limit < rs v / ls) :
    loop_lo (fuel + 1) ls mach step i = some (v, s', rs v / ls) := by
  rw [loop_lo, if_pos h]
  show loop_lo fuel ls (mach + step)
      (if upper_limit < rs (mach + step) / ls then step * (-0.1) else step)
      (rs (mach + step) / ls) = _
  rw [hv, if_pos hf, hs]
  exact loop_lo_exit (by linarith [lower_lt_upper])

theorem loop_lo_land (fuel : ℕ) (v : ℚ) {ls mach step i : ℚ}
    (hv : mach + step = v) (h : i < lower_limit)
    (hnf : ¬ upper_limit < rs v / ls) (hin : ¬ rs v / ls < lower_limit) :
    loop_lo (fuel + 1) ls mach step i = some (v, step, rs v / ls) := by
  rw [loop_lo_cont fuel v hv h hnf]
  exact loop_lo_exit hin

theorem sub_outer_exit {fuel : ℕ} {ls mach step i : ℚ}
    (h : ¬ (i < lower_limit ∨ upper_limit < i)) :
    sub_outer (fuel + 1) ls mach step i = some (np_around mach decimals) := by
  rw [sub_outer, if_neg h]

theorem sup_outer_exit {fuel : ℕ} {ls mach step i : ℚ}
    (h : ¬ (i < lower_limit ∨ upper_limit < i)) :
    sup_outer (fuel + 1) ls mach step i = some (np_around mach decimals) := by
  rw [sup_outer, if_neg h]

theorem sub_outer_Step {fuel : ℕ} {ls mach step i m₁ s₁ i₁ m₂ s₂ i₂ : ℚ}
    (hg : i < lower_limit ∨ upper_limit < i)
    (h1 : loop_hi (fuel + 1) ls mach step i = some (m₁, s₁, i₁))
    (h2 : loop_lo (fuel + 1) ls m₁ s₁ i₁ = some (m₂, s₂, i₂)) :
    sub_outer (fuel + 1) ls mach step i = sub_outer fuel ls m₂ s₂ i₂ := by
  rw [sub_outer, if_pos hg]
  split
  · rename_i heq
    exact absurd (h1.symm.trans heq) (by simp)
  · rename_i a b c heq
    obtain ⟨rfl, rfl, rfl⟩ : m₁ = a ∧ s₁ = b ∧ i₁ = c := by
      simpa using h1.symm.trans heq
    split
    · rename_i heq2
      exact absurd (h2.symm.trans heq2) (by simp)
    · rename_i a' b' c' heq2
      obtain ⟨rfl, rfl, rfl⟩ : m₂ = a' ∧ s₂ = b' ∧ i₂ = c' := by
        simpa using h2.symm.trans heq2
      rfl

theorem sup_outer_Step {fuel : ℕ} {ls mach step i m₁ s₁ i₁ m₂ s₂ i₂ : ℚ}
    (hg : i < lower_limit ∨ upper_limit < i)
    (h1 : loop_lo (fuel + 1) ls mach step i = some (m₁, s₁, i₁))
    (h2 : loop_hi (fuel + 1) ls m₁ s₁ i₁ = some (m₂, s₂, i₂)) :
    sup_outer (fuel + 1) ls mach step i = sup_outer fuel ls m₂ s₂ i₂ := by
  rw [sup_outer, if_pos hg]
  split
  · rename_i heq
    exact absurd (h1.symm.trans heq) (by simp)
  · rename_i a b c heq
    obtain ⟨rfl, rfl, rfl⟩ : m₁ = a ∧ s₁ = b ∧ i₁ = c := by
      simpa using h1.symm.trans heq
    split
    · rename_i heq2
      exact absurd (h2.symm.trans heq2) (by simp)
    · rename_i a' b' c' heq2
      obtain ⟨rfl, rfl, rfl⟩ : m₂ = a' ∧ s₂ = b' ∧ i₂ = c' := by
        simpa using h2.symm.trans heq2
      rfl

theorem loop_hi_mono (ls : ℚ) :
    ∀ fuel fuel' (mach step i : ℚ) st, fuel ≤ fuel' →
      loop_hi fuel ls mach step i = some st →
      loop_hi fuel' ls mach step i = some st := by
  intro fuel
  induction fuel with
  | zero =>
    intro fuel' mach step i st _ h
    rw [loop_hi] at h
    split_ifs at h with hg
    rw [loop_hi_exit hg]
    exact h
  | succ fuel ih =>
    intro fuel' mach step i st hle h
    rw [loop_hi] at h
    split_ifs at h with hg
    · obtain ⟨f', rfl⟩ : ∃ f', fuel' = f' + 1 := ⟨fuel' - 1, by omega⟩
      rw [loop_hi, if_pos hg]
      exact ih f' _ _ _ st (by omega) h
    · rw [loop_hi_exit hg]
      exact h

theorem loop_lo_mono (ls : ℚ) :
    ∀ fuel fuel' (mach step i : ℚ) st, fuel ≤ fuel' →
      loop_lo fuel ls mach step i = some st →
      loop_lo fuel' ls mach step i = some st := by
  intro fuel
  induction fuel with
  | zero =>
    intro fuel' mach step i st _ h
    rw [loop_lo] at h
    split_ifs at h with hg
    rw [loop_lo_exit hg]
    exact h
  | succ fuel ih =>
    intro fuel' mach step i st hle h
    rw [loop_lo] at h
    split_ifs at h with hg
    · obtain ⟨f', rfl⟩ : ∃ f', fuel' = f' + 1 := ⟨fuel' - 1, by omega⟩
      rw [loop_lo, if_pos hg]
      exact ih f' _ _ _ st (by omega) h
    · rw [loop_lo_exit hg]
      exact h

theorem sub_outer_mono (ls : ℚ) :
    ∀ fuel fuel' (mach step i M : ℚ), fuel ≤ fuel' →
      sub_outer fuel ls mach step i = some M →
      sub_outer fuel' ls mach step i = some M := by
  intro fuel
  induction fuel with
  | zero =>
    intro fuel' mach step i M _ h
    rw [sub_outer] at h
    exact absurd h (by simp)
  | succ fuel ih =>
    intro fuel' mach step i M hle h
    obtain ⟨f', rfl⟩ : ∃ f', fuel' = f' + 1 := ⟨fuel' - 1, by omega⟩
    rw [sub_outer] at h
    split_ifs at h with hg
    · split at h
      · exact absurd h (by simp)
      · rename_i m₁ s₁ i₁ h1
        split at h
        · exact absurd h (by simp)
        · rename_i m₂ s₂ i₂ h2
          rw [sub_outer_Step hg
            (loop_hi_mono ls (fuel + 1) (f' + 1) _ _ _ _ (by omega) h1)
            (loop_lo_mono ls (fuel + 1) (f' + 1) _ _ _ _ (by omega) h2)]
          exact ih f' _ _ _ M (by omega) h
    · rw [sub_outer_exit hg]
      exact h

theorem sup_outer_mono (ls : ℚ) :
    ∀ fuel fuel' (mach step i M : ℚ), fuel ≤ fuel' →
      sup_outer fuel ls mach step i = some M →
      sup_outer fuel' ls mach step i = some M := by
  intro fuel
  induction fuel with
  | zero =>
    intro fuel' mach step i M _ h
    rw [sup_outer] at h
    exact absurd h (by simp)
  | succ fuel ih =>
    intro fuel' mach step i M hle h
    obtain ⟨f', rfl⟩ : ∃ f', fuel' = f' + 1 := ⟨fuel' - 1, by omega⟩
    rw [sup_outer] at h
    split_ifs at h with hg
    · split at h
      · exact absurd h (by simp)
      · rename_i m₁ s₁ i₁ h1
        split at h
        · exact absurd h (by simp)
        · rename_i m₂ s₂ i₂ h2
          rw [sup_outer_Step hg
            (loop_lo_mono ls (fuel + 1) (f' + 1) _ _ _ _ (by omega) h1)
            (loop_hi_mono ls (fuel + 1) (f' + 1) _ _ _ _ (by omega) h2)]
          exact ih f' _ _ _ M (by omega) h
    · rw [sup_outer_exit hg]
      exact h

/-! ## The near-throat sliver

When the area-ratio target sits so close past the trivial band that the
band in Mach space reaches within `5·10⁻⁶` of `1`, the search cannot be
analysed through the rounding bound alone.  But on that whole sliver of
`ls` values the search follows one fixed 12-step trace and exits at
`0.999` (subsonic) resp. `1.001` (supersonic), which the following two
lemmas compute symbolically in `ls`. -/

set_option maxRecDepth 100000 in
theorem np_around_999 : np_around (999 / 1000) decimals = 999 / 1000 := by
  with_unfolding_all decide

set_option maxRecDepth 100000 in
theorem np_around_1001 : np_around (1001 / 1000) decimals = 1001 / 1000 := by
  with_unfolding_all decide

theorem sub_sliver (ls : ℚ) (hpos : 0 < ls) (hlo : 1 < lower_limit * ls)
    (hhi : lower_limit * ls ≤ rs (999995 / 1000000)) :
    ∀ fuel M, sub_outer fuel ls 1 (-0.1) (rs 1 / ls) = some M →
      M = 999 / 1000 := by
  have hup0 : (0 : ℚ) < upper_limit := by norm_num [upper_limit, tolerance]
  have hlow0 := lower_pos
  have hA : rs 1 / ls < lower_limit := by
    rw [rs_one, div_lt_iff₀ hpos]
    linarith
  have hAup : ¬ upper_limit < rs 1 / ls := by linarith [lower_lt_upper]
  have N1 : upper_limit * rs (999995 / 1000000) < rs (99 / 100) * lower_limit := by
    norm_num [rs_closed_form, upper_limit, lower_limit, tolerance]
  have hub : upper_limit * ls < rs (99 / 100) := by
    nlinarith [mul_le_mul_of_nonneg_left hhi hup0.le]
  have g : ∀ v : ℚ, 0 < v → v ≤ 99 / 100 → upper_limit < rs v / ls := by
    intro v hv0 hv
    rw [lt_div_iff₀ hpos]
    have := rs_anti_le hv0 hv (by norm_num)
    linarith
  have nf : ∀ v : ℚ, 0 < v → v < 999995 / 1000000 → ¬ rs v / ls < lower_limit := by
    intro v hv0 hv
    rw [not_lt, le_div_iff₀ hpos]
    have := rs_anti hv0 hv (by norm_num)
    linarith
  have N2 : rs (999 / 1000) * lower_limit < upper_limit := by
    norm_num [rs_closed_form, upper_limit, lower_limit, tolerance]
  have hlandup : ¬ upper_limit < rs (999 / 1000) / ls := by
    rw [not_lt, div_le_iff₀ hpos]
    nlinarith [mul_lt_mul_of_pos_left hlo hup0]
  have hlandlo : ¬ rs (999 / 1000) / ls < lower_limit :=
    nf (999 / 1000) (by norm_num) (by norm_num)
  have fixed : ∀ fuel, sub_outer (fuel + 14) ls 1 (-0.1) (rs 1 / ls) =
      some (999 / 1000) := by
    intro fuel
    have step1 : sub_outer (fuel + 14) ls 1 (-0.1) (rs 1 / ls) =
        sub_outer (fuel + 13) ls (9 / 10) (1 / 100) (rs (9 / 10) / ls) :=
      sub_outer_Step (Or.inl hA) (loop_hi_exit hAup)
        (loop_lo_flipexit (fuel + 13) (9 / 10) (1 / 100) (by norm_num) (by norm_num)
          hA (g (9 / 10) (by norm_num) (by norm_num)))
    have j1 : loop_hi (fuel + 13) ls (9 / 10) (1 / 100) (rs (9 / 10) / ls) =
        some (1, -(1 / 1000), rs 1 / ls) := by
      rw [loop_hi_cont (fuel + 12) (91 / 100) (by norm_num)
        (g (9 / 10) (by norm_num) (by norm_num)) (nf (91 / 100) (by norm_num) (by norm_num))]
      rw [loop_hi_cont (fuel + 11) (92 / 100) (by norm_num)
        (g (91 / 100) (by norm_num) (by norm_num)) (nf (92 / 100) (by norm_num) (by norm_num))]
      rw [loop_hi_cont (fuel + 10) (93 / 100) (by norm_num)
        (g (92 / 100) (by norm_num) (by norm_num)) (nf (93 / 100) (by norm_num) (by norm_num))]
      rw [loop_hi_cont (fuel + 9) (94 / 100) (by norm_num)
        (g (93 / 100) (by norm_num) (by norm_num)) (nf (94 / 100) (by norm_num) (by norm_num))]
      rw [loop_hi_cont (fuel + 8) (95 / 100) (by norm_num)
        (g (94 / 100) (by norm_num) (by norm_num)) (nf (95 / 100) (by norm_num) (by norm_num))]
      rw [loop_hi_cont (fuel + 7) (96 / 100) (by norm_num)
        (g (95 / 100) (by norm_num) (by norm_num)) (nf (96 / 100) (by norm_num) (by norm_num))]
      rw [loop_hi_cont (fuel + 6) (97 / 100) (by norm_num)
        (g (96 / 100) (by norm_num) (by norm_num)) (nf (97 / 100) (by norm_num) (by norm_num))]
      rw [loop_hi_cont (fuel + 5) (98 / 100) (by norm_num)
        (g (97 / 100) (by norm_num) (by norm_num)) (nf (98 / 100) (by norm_num) (by norm_num))]
      rw [loop_hi_cont (fuel + 4) (99 / 100) (by norm_num)
        (g (98 / 100) (by norm_num) (by norm_num)) (nf (99 / 100) (by norm_num) (by norm_num))]
      exact loop_hi_flipexit (fuel + 3) 1 (-(1 / 1000)) (by norm_num) (by norm_num)
        (g (99 / 100) (by norm_num) (by norm_num)) hA
    have j2 : loop_lo (fuel + 13) ls 1 (-(1 / 1000)) (rs 1 / ls) =
        some (999 / 1000, -(1 / 1000), rs (999 / 1000) / ls) :=
      loop_lo_land (fuel + 12) (999 / 1000) (by norm_num) hA hlandup hlandlo
    have step2 : sub_outer (fuel + 13) ls (9 / 10) (1 / 100) (rs (9 / 10) / ls) =
        sub_outer (fuel + 12) ls (999 / 1000) (-(1 / 1000)) (rs (999 / 1000) / ls) :=
      sub_outer_Step (Or.inr (g (9 / 10) (by norm_num) (by norm_num))) j1 j2
    have step3 : sub_outer (fuel + 12) ls (999 / 1000) (-(1 / 1000))
        (rs (999 / 1000) / ls) = some (np_around (999 / 1000) decimals) :=
      sub_outer_exit (by
        push_neg
        exact ⟨not_lt.mp hlandlo, not_lt.mp hlandup⟩)
    rw [step1, step2, step3, np_around_999]
  intro fuel M h
  have h' := sub_outer_mono ls fuel (fuel + 14) _ _ _ M (by omega) h
  have := (fixed fuel).symm.trans h'
  simpa using this.symm

theorem sup_sliver (ls : ℚ) (hpos : 0 < ls) (hlo : 1 < lower_limit * ls)
    (hhi : lower_limit * ls ≤ rs (1000005 / 1000000)) :
    ∀ fuel M, sup_outer fuel ls 1 (-0.1 * -1) (rs 1 / ls) = some M →
      M = 1001 / 1000 := by
  have hup0 : (0 : ℚ) < upper_limit := by norm_num [upper_limit, tolerance]
  have hlow0 := lower_pos
  have hA : rs 1 / ls < lower_limit := by
    rw [rs_one, div_lt_iff₀ hpos]
    linarith
  have hAup : ¬ upper_limit < rs 1 / ls := by linarith [lower_lt_upper]
  have N1 : upper_limit * rs (1000005 / 1000000) < rs (101 / 100) * lower_limit := by
    norm_num [rs_closed_form, upper_limit, lower_limit, tolerance]
  have hub : upper_limit * ls < rs (101 / 100) := by
    nlinarith [mul_le_mul_of_nonneg_left hhi hup0.le]
  have g : ∀ v : ℚ, 101 / 100 ≤ v → upper_limit < rs v / ls := by
    intro v hv
    rw [lt_div_iff₀ hpos]
    have := rs_mono_le (by norm_num : (1 : ℚ) ≤ 101 / 100) hv
    linarith
  have nf : ∀ v : ℚ, 1000005 / 1000000 < v → ¬ rs v / ls < lower_limit := by
    intro v hv
    rw [not_lt, le_div_iff₀ hpos]
    have := rs_mono (by norm_num : (1 : ℚ) ≤ 1000005 / 1000000) hv
    linarith
  have N2 : rs (1001 / 1000) * lower_limit < upper_limit := by
    norm_num [rs_closed_form, upper_limit, lower_limit, tolerance]
  have hlandup : ¬ upper_limit < rs (1001 / 1000) / ls := by
    rw [not_lt, div_le_iff₀ hpos]
    nlinarith [mul_lt_mul_of_pos_left hlo hup0]
  have hlandlo : ¬ rs (1001 / 1000) / ls < lower_limit :=
    nf (1001 / 1000) (by norm_num)
  have fixed : ∀ fuel, sup_outer (fuel + 14) ls 1 (-0.1 * -1) (rs 1 / ls) =
      some (1001 / 1000) := by
    intro fuel
    have j1 : loop_hi (fuel + 14) ls (11 / 10) (-(1 / 100)) (rs (11 / 10) / ls) =
        some (1, 1 / 1000, rs 1 / ls) := by
      rw [loop_hi_cont (fuel + 13) (109 / 100) (by norm_num)
        (g (11 / 10) (by norm_num)) (nf (109 / 100) (by norm_num))]
      rw [loop_hi_cont (fuel + 12) (108 / 100) (by norm_num)
        (g (109 / 100) (by norm_num)) (nf (108 / 100) (by norm_num))]
      rw [loop_hi_cont (fuel + 11) (107 / 100) (by norm_num)
        (g (108 / 100) (by norm_num)) (nf (107 / 100) (by norm_num))]
      rw [loop_hi_cont (fuel + 10) (106 / 100) (by norm_num)
        (g (107 / 100) (by norm_num)) (nf (106 / 100) (by norm_num))]
      rw [loop_hi_cont (fuel + 9) (105 / 100) (by norm_num)
        (g (106 / 100) (by norm_num)) (nf (105 / 100) (by norm_num))]
      rw [loop_hi_cont (fuel + 8) (104 / 100) (by norm_num)
        (g (105 / 100) (by norm_num)) (nf (104 / 100) (by norm_num))]
      rw [loop_hi_cont (fuel + 7) (103 / 100) (by norm_num)
        (g (104 / 100) (by norm_num)) (nf (103 / 100) (by norm_num))]
      rw [loop_hi_cont (fuel + 6) (102 / 100) (by norm_num)
        (g (103 / 100) (by norm_num)) (nf (102 / 100) (by norm_num))]
      rw [loop_hi_cont (fuel + 5) (101 / 100) (by norm_num)
        (g (102 / 100) (by norm_num)) (nf (101 / 100) (by norm_num))]
      exact loop_hi_flipexit (fuel + 4) 1 (1 / 1000) (by norm_num) (by norm_num)
        (g (101 / 100) (by norm_num)) hA
    have step1 : sup_outer (fuel + 14) ls 1 (-0.1 * -1) (rs 1 / ls) =
        sup_outer (fuel + 13) ls 1 (1 / 1000) (rs 1 / ls) :=
      sup_outer_Step (Or.inl hA)
        (loop_lo_flipexit (fuel + 13) (11 / 10) (-(1 / 100)) (by norm_num) (by norm_num)
          hA (g (11 / 10) (by norm_num)))
        j1
    have j2 : loop_lo (fuel + 13) ls 1 (1 / 1000) (rs 1 / ls) =
        some (1001 / 1000, 1 / 1000, rs (1001 / 1000) / ls) :=
      loop_lo_land (fuel + 12) (1001 / 1000) (by norm_num) hA hlandup hlandlo
    have step2 : sup_outer (fuel + 13) ls 1 (1 / 1000) (rs 1 / ls) =
        sup_outer (fuel + 12) ls (1001 / 1000) (1 / 1000) (rs (1001 / 1000) / ls) :=
      sup_outer_Step (Or.inl hA) j2 (loop_hi_exit hlandup)
    have step3 : sup_outer (fuel + 12) ls (1001 / 1000) (1 / 1000)
        (rs (1001 / 1000) / ls) = some (np_around (1001 / 1000) decimals) :=
      sup_outer_exit (by
        push_neg
        exact ⟨not_lt.mp hlandlo, not_lt.mp hlandup⟩)
    rw [step1, step2, step3, np_around_1001]
  intro fuel M h
  have h' := sup_outer_mono ls fuel (fuel + 14) _ _ _ M (by omega) h
  have := (fixed fuel).symm.trans h'
  simpa using this.symm

/-- Any value the subsonic search returns is strictly below `1`: off the
sliver, the pre-rounding iterate sits below `0.999995` (band membership plus
strict decrease of `rs`), so rounding cannot reach `1`; on the sliver the
search exits at `0.999` exactly. -/
theorem sub_result_lt_one (ls : ℚ) (hpos : 0 < ls) (hls : rs 1 / ls < lower_limit) :
    ∀ fuel M, sub_outer fuel ls 1 (-0.1) (rs 1 / ls) = some M → M < 1 := by
  intro fuel M h
  have h1ls : (1 : ℚ) / ls < lower_limit := by rwa [rs_one] at hls
  have hlo : 1 < lower_limit * ls := by
    rw [div_lt_iff₀ hpos] at h1ls
    linarith
  by_cases hsliver : lower_limit * ls ≤ rs (999995 / 1000000)
  · rw [sub_sliver ls hpos hlo hsliver fuel M h]
    norm_num
  · push_neg at hsliver
    obtain ⟨m₀, rfl, hm1, hbl, hbu⟩ :=
      sub_outer_subinv ls hls fuel 1 (-0.1) (rs 1 / ls) M (subinv_entry ls hls) h
    have hb : lower_limit * ls ≤ rs m₀ := by rwa [le_div_iff₀ hpos] at hbl
    have hkey : rs (999995 / 1000000) < rs m₀ := lt_of_lt_of_le hsliver hb
    have hmlt : m₀ < 999995 / 1000000 := by
      by_contra hcon
      push_neg at hcon
      exact absurd (rs_anti_le (by norm_num) hcon hm1) (not_le.mpr hkey)
    have hq : (1 : ℚ) / (2 * 10 ^ decimals) = 1 / 200000 := by norm_num [decimals]
    have hub := np_around_le m₀ decimals
    rw [hq] at hub
    have hc : (999995 : ℚ) / 1000000 + 1 / 200000 = 1 := by norm_num
    linarith

/-- Any value the supersonic search returns is strictly above `1`. -/
theorem sup_result_gt_one (ls : ℚ) (hpos : 0 < ls) (hls : rs 1 / ls < lower_limit) :
    ∀ fuel M, sup_outer fuel ls 1 (-0.1 * -1) (rs 1 / ls) = some M → 1 < M := by
  intro fuel M h
  have h1ls : (1 : ℚ) / ls < lower_limit := by rwa [rs_one] at hls
  have hlo : 1 < lower_limit * ls := by
    rw [div_lt_iff₀ hpos] at h1ls
    linarith
  by_cases hsliver : lower_limit * ls ≤ rs (1000005 / 1000000)
  · rw [sup_sliver ls hpos hlo hsliver fuel M h]
    norm_num
  · push_neg at hsliver
    obtain ⟨m₀, rfl, hm1, hbl, hbu⟩ :=
      sup_outer_supinv ls hls fuel 1 (-0.1 * -1) (rs 1 / ls) M (supinv_entry ls hls) h
    have hb : lower_limit * ls ≤ rs m₀ := by rwa [le_div_iff₀ hpos] at hbl
    have hkey : rs (1000005 / 1000000) < rs m₀ := lt_of_lt_of_le hsliver hb
    have hmgt : 1000005 / 1000000 < m₀ := by
      by_contra hcon
      push_neg at hcon
      exact absurd (rs_mono_le hm1 hcon) (not_le.mpr hkey)
    have hq : (1 : ℚ) / (2 * 10 ^ decimals) = 1 / 200000 := by norm_num [decimals]
    have hlb := le_np_around m₀ decimals
    rw [hq] at hlb
    have hc : (1000005 : ℚ) / 1000000 - 1 / 200000 = 1 := by norm_num
    linarith

/-- C3.  For a strictly diverging point (`radius_throat < radius_local`,
both positive) whose area ratio lies outside the tolerance band around the
throat (`rs 1 / areaRatio² < lower_limit`), any Mach number the solver
returns is strictly below `1` in the subsonic regime (`x_pos < 0`) and
strictly above `1` in the supersonic regime (`x_pos ≥ 0`). -/
theorem c3_branch_correctness :
    ∀ fuel (x r rt M : ℚ), 0 < rt → rt < r →
      rs 1 / lsOf r rt < lower_limit →
      area_to_mach fuel x r rt = some (.ok M) →
      (x < 0 → M < 1) ∧ (0 ≤ x → 1 < M) := by
  intro fuel x r rt M hrt hrr hls h
  have hge : ¬ r < rt := not_lt.mpr hrr.le
  have hr0 : r ≠ 0 := ne_of_gt (lt_trans hrt hrr)
  have hrt0 : rt ≠ 0 := ne_of_gt hrt
  have hpos : 0 < lsOf r rt := by rw [lsOf]; positivity
  have hcond : ¬ (lower_limit < rs 1 / lsOf r rt ∧ rs 1 / lsOf r rt < upper_limit) :=
    fun hc => absurd hc.1 (not_lt.mpr hls.le)
  constructor
  · intro hx
    rw [area_to_mach_sub fuel x r rt hge hx hcond] at h
    rw [Option.map_eq_some'] at h
    obtain ⟨M₀, hM₀, hok⟩ := h
    simp only [Except.ok.injEq] at hok
    subst hok
    exact sub_result_lt_one (lsOf r rt) hpos hls fuel M₀ hM₀
  · intro hx
    rw [area_to_mach_sup fuel x r rt hge hx hcond] at h
    rw [Option.map_eq_some'] at h
    obtain ⟨M₀, hM₀, hok⟩ := h
    simp only [Except.ok.injEq] at hok
    subst hok
    exact sup_result_gt_one (lsOf r rt) hpos hls fuel M₀ hM₀

theorem c3_branch_correctness_witness :
    rs 1 / lsOf (11 / 10) 1 < lower_limit ∧ (7279 / 12500 : ℚ) < 1 ∧
    rs 1 / lsOf 2 1 < lower_limit ∧ 1 < (147009 / 50000 : ℚ) := by
  refine ⟨?_, ?_, ?_, ?_⟩
  · with_unfolding_all decide
  · exact (c3_branch_correctness 200 (-1) (11 / 10) 1 (7279 / 12500) (by norm_num)
      (by norm_num) (by with_unfolding_all decide) (by with_unfolding_all rfl)).1
      (by norm_num)
  · with_unfolding_all decide
  · exact (c3_branch_correctness 200 1 2 1 (147009 / 50000) (by norm_num)
      (by norm_num) (by with_unfolding_all decide) (by with_unfolding_all rfl)).2
      (by norm_num)

/-- C8 counterexample.  Two radii giving area ratios `1 < ar₁ < ar₂`, both
inside the trivial tolerance band, make the solver return exactly `1` for
both, in either regime — so the claimed *strict* monotonicity
(`M(ar₁) > M(ar₂)` subsonic, `M(ar₁) < M(ar₂)` supersonic) fails: both
instances demand `1 < 1`. -/
theorem c8_strict_monotonicity_counterexample :
    (1 : ℚ) < (1000000001 / 1000000000) ^ 2 / 1 ^ 2 ∧
    ((1000000001 / 1000000000 : ℚ)) ^ 2 / 1 ^ 2 <
      ((1000000002 / 1000000000 : ℚ)) ^ 2 / 1 ^ 2 ∧
    area_to_mach 1 (-1) (1000000001 / 1000000000) 1 = some (.ok 1) ∧
    area_to_mach 1 (-1) (1000000002 / 1000000000) 1 = some (.ok 1) ∧
    area_to_mach 1 5 (1000000001 / 1000000000) 1 = some (.ok 1) ∧
    area_to_mach 1 5 (1000000002 / 1000000000) 1 = some (.ok 1) ∧
    ¬ ((1 : ℚ) < 1) := by
  refine ⟨by norm_num, by norm_num, ?_, ?_, ?_, ?_, by norm_num⟩ <;>
    with_unfolding_all rfl

/-- C8 (amended).  Monotonicity of the solved branches holds *non-strictly*,
and under a separation hypothesis: when the two targets' tolerance bands are
disjoint (`(1+tol)·ls₁ < (1-tol)·ls₂`), the subsonic solutions satisfy
`M₂ ≤ M₁` and the supersonic ones `M₁ ≤ M₂`.  (For the subsonic branch the
returned values are additionally assumed `≥ 0.1`, keeping the exact-rational
run on the physical branch — radius ratios above ≈ 2.41 make the idealised
search cross `M = 0`.)  Strictness fails in general because of the trivial
band and the 5-decimal rounding; see
`c8_strict_monotonicity_counterexample`. -/
theorem c8_monotonicity_band_separated :
    (∀ fuel₁ fuel₂ (x₁ x₂ r₁ r₂ rt M₁ M₂ : ℚ),
      x₁ < 0 → x₂ < 0 → 0 < rt → rt < r₁ → rt < r₂ →
      rs 1 / lsOf r₁ rt < lower_limit → rs 1 / lsOf r₂ rt < lower_limit →
      upper_limit * lsOf r₁ rt < lower_limit * lsOf r₂ rt →
      area_to_mach fuel₁ x₁ r₁ rt = some (.ok M₁) →
      area_to_mach fuel₂ x₂ r₂ rt = some (.ok M₂) →
      1 / 10 ≤ M₁ → 1 / 10 ≤ M₂ →
      M₂ ≤ M₁) ∧
    (∀ fuel₁ fuel₂ (x₁ x₂ r₁ r₂ rt M₁ M₂ : ℚ),
      0 ≤ x₁ → 0 ≤ x₂ → 0 < rt → rt < r₁ → rt < r₂ →
      rs 1 / lsOf r₁ rt < lower_limit → rs 1 / lsOf r₂ rt < lower_limit →
      upper_limit * lsOf r₁ rt < lower_limit * lsOf r₂ rt →
      area_to_mach fuel₁ x₁ r₁ rt = some (.ok M₁) →
      area_to_mach fuel₂ x₂ r₂ rt = some (.ok M₂) →
      M₁ ≤ M₂) := by
  constructor
  · intro fuel₁ fuel₂ x₁ x₂ r₁ r₂ rt M₁ M₂ hx₁ hx₂ hrt hrr₁ hrr₂ hls₁ hls₂ hsep h₁ h₂ hM₁ hM₂
    have hge₁ : ¬ r₁ < rt := not_lt.mpr hrr₁.le
    have hge₂ : ¬ r₂ < rt := not_lt.mpr hrr₂.le
    have hr₁0 : r₁ ≠ 0 := ne_of_gt (lt_trans hrt hrr₁)
    have hr₂0 : r₂ ≠ 0 := ne_of_gt (lt_trans hrt hrr₂)
    have hrt0 : rt ≠ 0 := ne_of_gt hrt
    have hpos₁ : 0 < lsOf r₁ rt := by rw [lsOf]; positivity
    have hpos₂ : 0 < lsOf r₂ rt := by rw [lsOf]; positivity
    have hcond₁ : ¬ (lower_limit < rs 1 / lsOf r₁ rt ∧ rs 1 / lsOf r₁ rt < upper_limit) :=
      fun hc => absurd hc.1 (not_lt.mpr hls₁.le)
    have hcond₂ : ¬ (lower_limit < rs 1 / lsOf r₂ rt ∧ rs 1 / lsOf r₂ rt < upper_limit) :=
      fun hc => absurd hc.1 (not_lt.mpr hls₂.le)
    rw [area_to_mach_sub fuel₁ x₁ r₁ rt hge₁ hx₁ hcond₁, Option.map_eq_some'] at h₁
    rw [area_to_mach_sub fuel₂ x₂ r₂ rt hge₂ hx₂ hcond₂, Option.map_eq_some'] at h₂
    obtain ⟨M₁', hrun₁, hok₁⟩ := h₁
    obtain ⟨M₂', hrun₂, hok₂⟩ := h₂
    simp only [Except.ok.injEq] at hok₁ hok₂
    subst hok₁
    subst hok₂
    obtain ⟨m₁, rfl, hm₁le, hbl₁, hbu₁⟩ :=
      sub_outer_subinv _ hls₁ fuel₁ 1 (-0.1) _ _ (subinv_entry _ hls₁) hrun₁
    obtain ⟨m₂, rfl, hm₂le, hbl₂, hbu₂⟩ :=
      sub_outer_subinv _ hls₂ fuel₂ 1 (-0.1) _ _ (subinv_entry _ hls₂) hrun₂
    have hq : (1 : ℚ) / (2 * 10 ^ decimals) = 1 / 200000 := by norm_num [decimals]
    have hub₁ := np_around_le m₁ decimals
    rw [hq] at hub₁
    have hm₁pos : 0 < m₁ := by linarith
    have hr₁ : rs m₁ ≤ upper_limit * lsOf r₁ rt := by rwa [div_le_iff₀ hpos₁] at hbu₁
    have hr₂ : lower_limit * lsOf r₂ rt ≤ rs m₂ := by rwa [le_div_iff₀ hpos₂] at hbl₂
    have hlt : rs m₁ < rs m₂ := by linarith
    have hle : m₂ ≤ m₁ := by
      by_contra hcon
      push_neg at hcon
      exact absurd (rs_anti_le hm₁pos hcon.le hm₂le) (not_le.mpr hlt)
    exact np_around_mono decimals hle
  · intro fuel₁ fuel₂ x₁ x₂ r₁ r₂ rt M₁ M₂ hx₁ hx₂ hrt hrr₁ hrr₂ hls₁ hls₂ hsep h₁ h₂
    have hge₁ : ¬ r₁ < rt := not_lt.mpr hrr₁.le
    have hge₂ : ¬ r₂ < rt := not_lt.mpr hrr₂.le
    have hr₁0 : r₁ ≠ 0 := ne_of_gt (lt_trans hrt hrr₁)
    have hr₂0 : r₂ ≠ 0 := ne_of_gt (lt_trans hrt hrr₂)
    have hrt0 : rt ≠ 0 := ne_of_gt hrt
    have hpos₁ : 0 < lsOf r₁ rt := by rw [lsOf]; positivity
    have hpos₂ : 0 < lsOf r₂ rt := by rw [lsOf]; positivity
    have hcond₁ : ¬ (lower_limit < rs 1 / lsOf r₁ rt ∧ rs 1 / lsOf r₁ rt < upper_limit) :=
      fun hc => absurd hc.1 (not_lt.mpr hls₁.le)
    have hcond₂ : ¬ (lower_limit < rs 1 / lsOf r₂ rt ∧ rs 1 / lsOf r₂ rt < upper_limit) :=
      fun hc => absurd hc.1 (not_lt.mpr hls₂.le)
    rw [area_to_mach_sup fuel₁ x₁ r₁ rt hge₁ hx₁ hcond₁, Option.map_eq_some'] at h₁
    rw [area_to_mach_sup fuel₂ x₂ r₂ rt hge₂ hx₂ hcond₂, Option.map_eq_some'] at h₂
    obtain ⟨M₁', hrun₁, hok₁⟩ := h₁
    obtain ⟨M₂', hrun₂, hok₂⟩ := h₂
    simp only [Except.ok.injEq] at hok₁ hok₂
    subst hok₁
    subst hok₂
    obtain ⟨m₁, rfl, hm₁ge, hbl₁, hbu₁⟩ :=
      sup_outer_supinv _ hls₁ fuel₁ 1 (-0.1 * -1) _ _ (supinv_entry _ hls₁) hrun₁
    obtain ⟨m₂, rfl, hm₂ge, hbl₂, hbu₂⟩ :=
      sup_outer_supinv _ hls₂ fuel₂ 1 (-0.1 * -1) _ _ (supinv_entry _ hls₂) hrun₂
    have hr₁ : rs m₁ ≤ upper_limit * lsOf r₁ rt := by rwa [div_le_iff₀ hpos₁] at hbu₁
    have hr₂ : lower_limit * lsOf r₂ rt ≤ rs m₂ := by rwa [le_div_iff₀ hpos₂] at hbl₂
    have hlt : rs m₁ < rs m₂ := by linarith
    have hle : m₁ ≤ m₂ := by
      by_contra hcon
      push_neg at hcon
      exact absurd (rs_mono_le hm₂ge hcon.le) (not_le.mpr hlt)
    exact np_around_mono decimals hle

theorem c8_monotonicity_band_separated_witness :
    upper_limit * lsOf (11 / 10) 1 < lower_limit * lsOf (13 / 10) 1 ∧
    (37159 / 100000 : ℚ) ≤ 7279 / 12500 ∧
    upper_limit * lsOf (3 / 2) 1 < lower_limit * lsOf 2 1 ∧
    (232817 / 100000 : ℚ) ≤ 147009 / 50000 := by
  refine ⟨?_, ?_, ?_, ?_⟩
  · with_unfolding_all decide
  · exact c8_monotonicity_band_separated.1 200 200 (-1) (-1) (11 / 10) (13 / 10) 1
      (7279 / 12500) (37159 / 100000) (by norm_num) (by norm_num) (by norm_num)
      (by norm_num) (by norm_num) (by with_unfolding_all decide)
      (by with_unfolding_all decide) (by with_unfolding_all decide)
      (by with_unfolding_all rfl) (by with_unfolding_all rfl)
      (by norm_num) (by norm_num)
  · with_unfolding_all decide
  · exact c8_monotonicity_band_separated.2 200 200 1 1 (3 / 2) 2 1 (232817 / 100000)
      (147009 / 50000) (by norm_num) (by norm_num) (by norm_num) (by norm_num)
      (by norm_num) (by with_unfolding_all decide) (by with_unfolding_all decide)
      (by with_unfolding_all decide) (by with_unfolding_all rfl)
      (by with_unfolding_all rfl)

/-- In the exact-rational model, a subsonic input whose root lies below the
coarsest step (`radius_local / radius_throat = 3`, so ten exact `-0.1`
steps from `1` reach `0`) evaluates the right side at `mach_no = 0` — the
junk value `0` in ℚ, a `ZeroDivisionError` in Python under exact
arithmetic — and the search walks on into negative Mach values,
converging on the mirrored supersonic root.  (The floating-point code
avoids `0` only because ten binary `0.1` subtractions leave `≈ 1.4·10⁻¹⁶`.) -/
theorem area_to_mach_crosses_zero :
    area_to_mach 200 (-1) 3 1 = some (.ok (-(76121 / 20000))) := by
  with_unfolding_all rfl
